import Mathlib

/-!
Verification of the Hermes telemetry accounting core (`crates/telemetry/src/state.rs`).

The Rust code keeps, per relay path, a `DashMap<u64, u64>` from packet sequence
number to the unix timestamp at which the corresponding SendPacket event was
observed, plus a moka correlation cache for transaction latency and a layered
fee ledger.  This file gives a shallow embedding of that state and of the
operations `backlog_insert`, `backlog_remove`, `update_backlog`,
`received_event_batch`, `tx_submitted`, `tx_confirmed`, `fees_amount`,
`update_period_fees` and `add_visible_fee_address`, and proves the specified
properties about them.

Modelling conventions:
* `DashMap<u64, u64>` becomes an association list `List (Nat × Nat)`; the
  backlog operations preserve the no-duplicate-keys invariant, so the list is
  extensionally a finite map.  Iteration order is irrelevant: the code only
  takes `min` over keys and `len`.
* Wall-clock instants (`Time::now()`, `Instant::now()`) are nondeterministic
  inputs of the Rust functions; the embedding threads them as explicit `Nat`
  parameters (unix seconds for the backlog, milliseconds for latency).
  Sequence numbers and timestamps are `u64` in Rust; the backlog and latency
  operations perform no arithmetic that can wrap (only `min`, lengths bounded
  by 901, and `Instant::elapsed`, which is non-negative by construction), so
  they are modelled as `Nat`.  The fee path does wrap-capable arithmetic: the
  reward amount arrives as a `U256` whose `as_u64` conversion panics above
  `u64::MAX` (modelled as `Option`), and the windowed sum and total counter
  accumulate in `u64`, modelled with an explicit `% 2 ^ 64` on each addition.
* Gauge updates (`observe` calls) are returned as an explicit emission list,
  and the current value of a gauge is the fold of the emissions it received.
-/

namespace Hermes

/-- Constant `EMPTY_BACKLOG_SYMBOL` from `state.rs`: reserved sentinel emitted for the
oldest-sequence and size gauges when a path backlog is empty. -/
def EMPTY_BACKLOG_SYMBOL : Nat := 0

/-- Constant `BACKLOG_CAPACITY` from `state.rs`: capacity hint passed to
`DashMap::with_capacity` when a new per-path backlog is created. -/
def BACKLOG_CAPACITY : Nat := 1000

/-- Constant `BACKLOG_RESET_THRESHOLD` from `state.rs`: eviction fires in
`backlog_insert` when the inner backlog length exceeds this threshold. -/
def BACKLOG_RESET_THRESHOLD : Nat := 900

/-- Constant `FEE_LIFETIME` from `state.rs`, in seconds (7 days): both the
time-to-live and the time-to-idle of each ephemeral rewarded-fee cache. -/
def FEE_LIFETIME : Nat := 60 * 60 * 24 * 7

/-- Time-to-live of the `in_flight_events` moka cache, in milliseconds
(1 hour, from `TelemetryState::new`). -/
def IN_FLIGHT_TTL_MS : Nat := 60 * 60 * 1000

/-- Time-to-idle of the `in_flight_events` moka cache, in milliseconds
(30 minutes, from `TelemetryState::new`). -/
def IN_FLIGHT_TTI_MS : Nat := 30 * 60 * 1000

/-- Number of values of a `u64`: `u64` arithmetic is modular with this
modulus (Rust release-profile overflow semantics). -/
def U64_MOD : Nat := 2 ^ 64

/-- Key type `PathIdentifier::new(chain_id, channel_id, port_id)`: the key of the outer
backlog map.  Note that the counterparty chain is *not* part of the key. -/
structure PathIdentifier where
  chain : String
  channel : String
  port : String
deriving DecidableEq

/-- The label set `(chain, counterparty, channel, port)` attached to every
backlog gauge observation. -/
structure Labels where
  chain : String
  counterparty : String
  channel : String
  port : String
deriving DecidableEq

/-- One inner backlog: `DashMap<u64, u64>` from sequence number to the unix
timestamp at which the SendPacket event was observed. -/
abbrev Backlog := List (Nat × Nat)

/-- The key set of an inner backlog (`path_backlog.iter().map(|v| *v.key())`). -/
def keysOf (b : Backlog) : List Nat := b.map Prod.fst

/-- Rust `Iterator::min` over a list of keys. -/
def minKey? : List Nat → Option Nat
  | [] => none
  | k :: ks =>
    match minKey? ks with
    | none => some k
    | some m => some (min k m)

/-- Rust `DashMap::insert`: overwrite the value if the key is present, otherwise
add a fresh entry. -/
def dashInsert (b : Backlog) (seq ts : Nat) : Backlog :=
  if seq ∈ keysOf b then
    b.map (fun p => if p.1 = seq then (seq, ts) else p)
  else
    (seq, ts) :: b

/-- Rust `DashMap::remove`: drop every entry with the given key (there is at most
one under the no-duplicate-keys invariant). -/
def removeKey (b : Backlog) (seq : Nat) : Backlog :=
  b.filter (fun p => p.1 ≠ seq)

/-- The moka `in_flight_events` entry for one tracking id: the stored
`Instant` together with the entry's last-access time (used by the
time-to-idle policy).  `received_event_batch` stores `Instant::now()` at
insertion, so the stored instant is also the entry's insertion time. -/
structure InFlightEntry where
  start : Nat
  lastAccess : Nat
deriving DecidableEq

/-- One ephemeral rewarded-fee moka cache pushed by `fees_amount`: it holds a
single key/amount pair and was created (and its entry inserted) at
`inserted`.  Its time-to-live and time-to-idle are both `FEE_LIFETIME`. -/
structure FeeInstance where
  key : String
  amount : Nat
  inserted : Nat
deriving DecidableEq

/-- The fee-counter label set `(chain, receiver, denom)`. -/
structure FeeLabels where
  chain : String
  receiver : String
  denom : String
deriving DecidableEq

/-- Which backlog gauge an `observe` call targets. -/
inductive GaugeKind
  | oldest
  | timestamp
  | size
deriving DecidableEq

/-- One `observe` call on a backlog gauge. -/
structure Emit where
  kind : GaugeKind
  labels : Labels
  value : Nat
deriving DecidableEq

/-- The mutable telemetry state relevant to the verified operations.
Counters and histograms are modelled as append-only event logs; the value of
a counter is the sum of the amounts logged against its label set. -/
structure TelemetryState where
  backlogs : List (PathIdentifier × Backlog)
  in_flight_events : List (String × InFlightEntry)
  tx_latency_submitted : List (Labels × Nat)
  tx_latency_confirmed : List (Labels × Nat)
  fee_amounts : List (FeeLabels × Nat)
  visible_fee_addresses : List String
  cached_fees : List FeeInstance
deriving DecidableEq

/-- The freshly constructed `TelemetryState`: no backlogs, empty caches, no
visible fee addresses. -/
def initState : TelemetryState :=
  { backlogs := []
    in_flight_events := []
    tx_latency_submitted := []
    tx_latency_confirmed := []
    fee_amounts := []
    visible_fee_addresses := []
    cached_fees := [] }

/-- Lookup `self.backlogs.get(&path_uid)`. -/
def lookupBacklog : List (PathIdentifier × Backlog) → PathIdentifier → Option Backlog
  | [], _ => none
  | (q, b) :: rest, p => if q = p then some b else lookupBacklog rest p

/-- Write back an inner backlog under a path key (in-place mutation of the
entry if present, `DashMap::insert` of a fresh entry otherwise). -/
def setBacklog (l : List (PathIdentifier × Backlog)) (p : PathIdentifier) (b : Backlog) :
    List (PathIdentifier × Backlog) :=
  match l with
  | [] => [(p, b)]
  | (q, b0) :: rest => if q = p then (p, b) :: rest else (q, b0) :: setBacklog rest p b

/-- Removal `self.backlogs.remove(&path_uid)`. -/
def removePath (l : List (PathIdentifier × Backlog)) (p : PathIdentifier) :
    List (PathIdentifier × Backlog) :=
  l.filter (fun e => e.1 ≠ p)

/-- Current value of a backlog gauge after a list of emissions, starting from
`v0` (gauges start at `0`: `init_per_path` observes `0` for each of them). -/
def gaugeValue (k : GaugeKind) (lab : Labels) (es : List Emit) (v0 : Nat) : Nat :=
  es.foldl (fun v e => if e.kind = k ∧ e.labels = lab then e.value else v) v0

/-- Summation into a `u64` accumulator: each addition wraps modulo
`2 ^ 64`. -/
def u64sum (l : List Nat) : Nat :=
  l.foldl (fun acc v => (acc + v) % U64_MOD) 0

/-- Value of the `fee_amounts` counter for one label set.  The counter is an
OpenTelemetry `Counter<u64>`, so accumulation wraps modulo `2 ^ 64`. -/
def feeTotal (s : TelemetryState) (lab : FeeLabels) : Nat :=
  u64sum (s.fee_amounts.filterMap (fun e => if e.1 = lab then some e.2 else none))

/-! ### The backlog operations (`state.rs`, lines 961-1118) -/

/-- Operation `TelemetryState::backlog_insert`.  The wall-clock timestamp (unix
seconds) is threaded as the explicit parameter `timestamp`.  Returns the new
state together with the list of gauge observations performed. -/
def backlog_insert (s : TelemetryState) (seq_nr : Nat)
    (chain_id channel_id port_id counterparty_chain_id : String) (timestamp : Nat) :
    TelemetryState × List Emit :=
  let path_uid : PathIdentifier := ⟨chain_id, channel_id, port_id⟩
  let labels : Labels := ⟨chain_id, counterparty_chain_id, channel_id, port_id⟩
  match lookupBacklog s.backlogs path_uid with
  | some path_backlog =>
    -- Avoid having the inner backlog map growing more than a given threshold,
    -- by removing the oldest sequence number entry.
    let b1 :=
      if path_backlog.length > BACKLOG_RESET_THRESHOLD then
        match minKey? (keysOf path_backlog) with
        | some m => removeKey path_backlog m
        | none => path_backlog
      else path_backlog
    let b2 := dashInsert b1 seq_nr timestamp
    let pair :=
      match minKey? (keysOf b2) with
      | some m => (m, b2.length)
      | none => (EMPTY_BACKLOG_SYMBOL, EMPTY_BACKLOG_SYMBOL)
    ({ s with backlogs := setBacklog s.backlogs path_uid b2 },
      [⟨GaugeKind.oldest, labels, pair.1⟩,
       ⟨GaugeKind.timestamp, labels, timestamp⟩,
       ⟨GaugeKind.size, labels, pair.2⟩])
  | none =>
    -- New map for this path (`DashMap::with_capacity(BACKLOG_CAPACITY)` in
    -- Rust; the capacity hint has no observable semantics).
    ({ s with backlogs := setBacklog s.backlogs path_uid [(seq_nr, timestamp)] },
      [⟨GaugeKind.oldest, labels, seq_nr⟩,
       ⟨GaugeKind.timestamp, labels, timestamp⟩,
       ⟨GaugeKind.size, labels, 1⟩])

/-- Operation `TelemetryState::backlog_remove`. -/
def backlog_remove (s : TelemetryState) (seq_nr : Nat)
    (chain_id channel_id port_id counterparty_chain_id : String) (timestamp : Nat) :
    TelemetryState × List Emit :=
  let path_uid : PathIdentifier := ⟨chain_id, channel_id, port_id⟩
  let labels : Labels := ⟨chain_id, counterparty_chain_id, channel_id, port_id⟩
  match lookupBacklog s.backlogs path_uid with
  | some path_backlog =>
    if seq_nr ∈ keysOf path_backlog then
      let b2 := removeKey path_backlog seq_nr
      let es :=
        match minKey? (keysOf b2) with
        | some min_key =>
          [⟨GaugeKind.timestamp, labels, timestamp⟩,
           ⟨GaugeKind.oldest, labels, min_key⟩,
           ⟨GaugeKind.size, labels, b2.length⟩]
        | none =>
          -- No minimum found, update the metrics to reflect an empty backlog
          [⟨GaugeKind.timestamp, labels, timestamp⟩,
           ⟨GaugeKind.oldest, labels, EMPTY_BACKLOG_SYMBOL⟩,
           ⟨GaugeKind.size, labels, EMPTY_BACKLOG_SYMBOL⟩]
      ({ s with backlogs := setBacklog s.backlogs path_uid b2 }, es)
    else (s, [])
  | none => (s, [])

/-- Operation `TelemetryState::update_backlog`. -/
def update_backlog (s : TelemetryState) (sequences : List Nat)
    (chain_id channel_id port_id counterparty_chain_id : String) (timestamp : Nat) :
    TelemetryState × List Emit :=
  let path_uid : PathIdentifier := ⟨chain_id, channel_id, port_id⟩
  if sequences.isEmpty then
    match lookupBacklog s.backlogs path_uid with
    | some path_backlog =>
      let current_keys := keysOf path_backlog
      current_keys.foldl
        (fun acc key =>
          let r := backlog_remove acc.1 key chain_id channel_id port_id
            counterparty_chain_id timestamp
          (r.1, acc.2 ++ r.2))
        (s, [])
    | none => (s, [])
  else
    let s0 := { s with backlogs := removePath s.backlogs path_uid }
    sequences.foldl
      (fun acc key =>
        let r := backlog_insert acc.1 key chain_id channel_id port_id
          counterparty_chain_id timestamp
        (r.1, acc.2 ++ r.2))
      (s0, [])

/-! ### The correlation cache (`state.rs`, lines 805-864) -/

/-- Association-list lookup for the in-flight cache. -/
def lookupInFlight : List (String × InFlightEntry) → String → Option InFlightEntry
  | [], _ => none
  | (k, e) :: rest, id => if k = id then some e else lookupInFlight rest id

/-- Moka insert: replace the entry if the key is present (resetting its
timers), add it otherwise. -/
def upsertInFlight (c : List (String × InFlightEntry)) (id : String) (e : InFlightEntry) :
    List (String × InFlightEntry) :=
  match c with
  | [] => [(id, e)]
  | (k, e0) :: rest =>
    if k = id then (id, e) :: rest else (k, e0) :: upsertInFlight rest id e

/-- Whether an in-flight entry is still live at time `now` (milliseconds):
moka drops an entry once it has lived past the time-to-live or has been idle
past the time-to-idle, whichever comes first. -/
def inFlightLive (e : InFlightEntry) (now : Nat) : Prop :=
  now - e.start < IN_FLIGHT_TTL_MS ∧ now - e.lastAccess < IN_FLIGHT_TTI_MS

instance (e : InFlightEntry) (now : Nat) : Decidable (inFlightLive e now) := by
  unfold inFlightLive; infer_instance

/-- Operation `moka::sync::Cache::get` at time `now`: returns the stored instant if the
entry is present and not expired, refreshing its idle timer. -/
def getInFlight (c : List (String × InFlightEntry)) (id : String) (now : Nat) :
    Option Nat × List (String × InFlightEntry) :=
  match lookupInFlight c id with
  | some e =>
    if inFlightLive e now then
      (some e.start, upsertInFlight c id { e with lastAccess := now })
    else (none, c)
  | none => (none, c)

/-- Operation `TelemetryState::received_event_batch`: records `Instant::now()` (the
parameter `now`, in milliseconds) against the tracking id. -/
def received_event_batch (s : TelemetryState) (tracking_id : String) (now : Nat) :
    TelemetryState :=
  { s with in_flight_events :=
      upsertInFlight s.in_flight_events tracking_id ⟨now, now⟩ }

/-- Operation `TelemetryState::tx_submitted`: if the tracking id is live in the cache,
record the elapsed latency `tx_count` times into the submitted-latency
histogram; otherwise do nothing. -/
def tx_submitted (s : TelemetryState) (tx_count : Nat) (tracking_id : String)
    (chain_id channel_id port_id counterparty_chain_id : String) (now : Nat) :
    TelemetryState :=
  let labels : Labels := ⟨chain_id, counterparty_chain_id, channel_id, port_id⟩
  match getInFlight s.in_flight_events tracking_id now with
  | (some start, cache) =>
    let latency := now - start
    { s with
      in_flight_events := cache
      tx_latency_submitted :=
        s.tx_latency_submitted ++ List.replicate tx_count (labels, latency) }
  | (none, _) => s

/-- Operation `TelemetryState::tx_confirmed`: same as `tx_submitted` but records into
the confirmed-latency histogram. -/
def tx_confirmed (s : TelemetryState) (tx_count : Nat) (tracking_id : String)
    (chain_id channel_id port_id counterparty_chain_id : String) (now : Nat) :
    TelemetryState :=
  let labels : Labels := ⟨chain_id, counterparty_chain_id, channel_id, port_id⟩
  match getInFlight s.in_flight_events tracking_id now with
  | (some start, cache) =>
    let latency := now - start
    { s with
      in_flight_events := cache
      tx_latency_confirmed :=
        s.tx_latency_confirmed ++ List.replicate tx_count (labels, latency) }
  | (none, _) => s

/-! ### The fee ledger (`state.rs`, lines 1120-1173) -/

/-- The string key `format!("fee_amount:{chain_id}/{receiver}/{denom}")`. -/
def feeKey (chain_id receiver denom : String) : String :=
  "fee_amount:" ++ chain_id ++ "/" ++ receiver ++ "/" ++ denom

/-- Operation `Cache::get(&key)` on one ephemeral fee cache at time `now` (seconds):
the instance holds exactly one key; its entry contributes while younger than
`FEE_LIFETIME` (time-to-live and time-to-idle coincide, and the entry is
never re-accessed before the sum, so liveness is age alone). -/
def feeInstanceGet (inst : FeeInstance) (k : String) (now : Nat) : Option Nat :=
  if inst.key = k ∧ now - inst.inserted < FEE_LIFETIME then some inst.amount else none

/-- Sum `let sum: u64 = cached_fees.iter().filter_map(|e| e.get(&key)).sum()`
(`state.rs`): the accumulator is a `u64`, so the sum over the (unboundedly
growing) ledger wraps modulo `2 ^ 64`. -/
def periodFeeSum (l : List FeeInstance) (k : String) (now : Nat) : Nat :=
  u64sum (l.filterMap (fun e => feeInstanceGet e k now))

/-- Operation `TelemetryState::fees_amount`.  The reward amount arrives as a
`U256`; the conversion `fee_amounts.amount.0.as_u64()` panics when it
exceeds `u64::MAX`, modelled as `none`.  Otherwise the call returns the new
state together with the value observed on the `period_fees` gauge (`none`
inside when the receiver is not visible: the early return precedes the
conversion, so no amount, however large, is recorded then). -/
def fees_amount (s : TelemetryState) (chain_id receiver denom : String)
    (amount : Nat) (now : Nat) : Option (TelemetryState × Option Nat) :=
  -- If the address isn't in the filter list, don't record the metric.
  if receiver ∈ s.visible_fee_addresses then
    if amount < U64_MOD then
      let labels : FeeLabels := ⟨chain_id, receiver, denom⟩
      let fee_amount := amount
      let key := feeKey chain_id receiver denom
      let ephemeral_fee : FeeInstance := ⟨key, fee_amount, now⟩
      let cached := s.cached_fees ++ [ephemeral_fee]
      let sum := periodFeeSum cached key now
      some ({ s with
          fee_amounts := s.fee_amounts ++ [(labels, fee_amount)]
          cached_fees := cached },
        some sum)
    else
      -- `U256::as_u64` panics: nothing is recorded.
      none
  else some (s, none)

/-- Operation `TelemetryState::update_period_fees`: recompute and re-emit the windowed
sum for a key without adding a new instance. -/
def update_period_fees (s : TelemetryState) (chain_id receiver denom : String)
    (now : Nat) : TelemetryState × Nat :=
  let key := feeKey chain_id receiver denom
  (s, periodFeeSum s.cached_fees key now)

/-- Operation `TelemetryState::add_visible_fee_address` (`DashSet::insert`). -/
def add_visible_fee_address (s : TelemetryState) (address : String) : TelemetryState :=
  if address ∈ s.visible_fee_addresses then s
  else { s with visible_fee_addresses := address :: s.visible_fee_addresses }

/-! ### Sequences of backlog operations on one path

The backlog properties quantify over arbitrary finite sequences of backlog
calls on a single path.  `BOp` is one such call (carrying the wall-clock
timestamp the call observes) and `runBOps` executes a list of them from a
given state, accumulating all gauge emissions. -/

/-- One backlog API call on a fixed path. -/
inductive BOp
  | ins (seq ts : Nat)
  | rem (seq ts : Nat)
  | upd (seqs : List Nat) (ts : Nat)
deriving DecidableEq

/-- Execute one backlog call on the path `(chain, channel, port)` with
counterparty `cp`, appending its emissions to the accumulated trace. -/
def applyBOp (chain channel port cp : String)
    (acc : TelemetryState × List Emit) (op : BOp) : TelemetryState × List Emit :=
  match op with
  | BOp.ins seq ts =>
    let r := backlog_insert acc.1 seq chain channel port cp ts
    (r.1, acc.2 ++ r.2)
  | BOp.rem seq ts =>
    let r := backlog_remove acc.1 seq chain channel port cp ts
    (r.1, acc.2 ++ r.2)
  | BOp.upd seqs ts =>
    let r := update_backlog acc.1 seqs chain channel port cp ts
    (r.1, acc.2 ++ r.2)

/-- Execute a list of backlog calls on one path. -/
def runBOps (chain channel port cp : String)
    (acc : TelemetryState × List Emit) (ops : List BOp) : TelemetryState × List Emit :=
  ops.foldl (applyBOp chain channel port cp) acc

/-- The key list of the inner backlog currently tracked for a path (empty
when the path has no inner backlog). -/
def trackedKeys (s : TelemetryState) (p : PathIdentifier) : List Nat :=
  keysOf ((lookupBacklog s.backlogs p).getD [])

/-! ### Lemmas about `minKey?` -/

theorem minKey?_eq_none_iff {l : List Nat} : minKey? l = none ↔ l = [] := by
  cases l with
  | nil => simp [minKey?]
  | cons k ks =>
    simp only [minKey?]
    cases minKey? ks <;> simp

theorem minKey?_isSome_of_ne_nil {l : List Nat} (h : l ≠ []) : ∃ m, minKey? l = some m := by
  cases hm : minKey? l with
  | none => exact absurd (minKey?_eq_none_iff.mp hm) h
  | some m => exact ⟨m, rfl⟩

theorem minKey?_mem {l : List Nat} {m : Nat} (h : minKey? l = some m) : m ∈ l := by
  induction l generalizing m with
  | nil => simp [minKey?] at h
  | cons k ks ih =>
    simp only [minKey?] at h
    cases hks : minKey? ks with
    | none => rw [hks] at h; simp at h; simp [h]
    | some m' =>
      rw [hks] at h
      simp only [Option.some.injEq] at h
      subst h
      rcases le_total k m' with hle | hle
      · rw [min_eq_left hle]; exact List.mem_cons_self _ _
      · rw [min_eq_right hle]
        exact List.mem_cons_of_mem _ (ih hks)

theorem minKey?_le {l : List Nat} {m : Nat} (h : minKey? l = some m) :
    ∀ x ∈ l, m ≤ x := by
  induction l generalizing m with
  | nil => simp
  | cons k ks ih =>
    simp only [minKey?] at h
    cases hks : minKey? ks with
    | none =>
      rw [hks] at h
      simp only [Option.some.injEq] at h
      subst h
      have hks' := minKey?_eq_none_iff.mp hks
      subst hks'
      intro x hx
      rcases List.mem_cons.mp hx with rfl | hx'
      · exact Nat.le_refl _
      · simp at hx'
    | some m' =>
      rw [hks] at h
      simp only [Option.some.injEq] at h
      subst h
      intro x hx
      rcases List.mem_cons.mp hx with rfl | hx'
      · exact min_le_left _ _
      · exact le_trans (min_le_right _ _) (ih hks x hx')

theorem minKey?_eq_some_of {l : List Nat} {m : Nat}
    (hmem : m ∈ l) (hlb : ∀ x ∈ l, m ≤ x) : minKey? l = some m := by
  obtain ⟨m', hm'⟩ := minKey?_isSome_of_ne_nil (List.ne_nil_of_mem hmem)
  have h1 : m' ≤ m := minKey?_le hm' m hmem
  have h2 : m ≤ m' := hlb m' (minKey?_mem hm')
  rw [hm', Nat.le_antisymm h1 h2]

/-! ### Lemmas about `keysOf`, `dashInsert`, `removeKey` -/

theorem keysOf_dashInsert (b : Backlog) (seq ts : Nat) :
    keysOf (dashInsert b seq ts) =
      if seq ∈ keysOf b then keysOf b else seq :: keysOf b := by
  by_cases h : seq ∈ keysOf b
  · rw [if_pos h]
    unfold dashInsert
    rw [if_pos h]
    unfold keysOf
    rw [List.map_map]
    apply List.map_congr_left
    intro p _
    by_cases hp : p.1 = seq <;> simp [hp]
  · rw [if_neg h]
    unfold dashInsert
    rw [if_neg h]
    rfl

theorem length_dashInsert (b : Backlog) (seq ts : Nat) :
    (dashInsert b seq ts).length =
      if seq ∈ keysOf b then b.length else b.length + 1 := by
  unfold dashInsert
  by_cases h : seq ∈ keysOf b <;> simp [h]

theorem length_keysOf (b : Backlog) : (keysOf b).length = b.length := by
  simp [keysOf]

theorem keysOf_removeKey (b : Backlog) (seq : Nat) :
    keysOf (removeKey b seq) = (keysOf b).filter (fun k => k ≠ seq) := by
  unfold removeKey keysOf
  rw [List.filter_map]
  rfl

theorem mem_keysOf_removeKey {b : Backlog} {k seq : Nat} :
    k ∈ keysOf (removeKey b seq) ↔ k ∈ keysOf b ∧ k ≠ seq := by
  rw [keysOf_removeKey]
  simp [List.mem_filter]

theorem nodup_keysOf_dashInsert {b : Backlog} (hb : (keysOf b).Nodup) (seq ts : Nat) :
    (keysOf (dashInsert b seq ts)).Nodup := by
  rw [keysOf_dashInsert]
  by_cases h : seq ∈ keysOf b
  · simpa [h] using hb
  · rw [if_neg h]
    exact List.nodup_cons.mpr ⟨h, hb⟩

theorem nodup_keysOf_removeKey {b : Backlog} (hb : (keysOf b).Nodup) (seq : Nat) :
    (keysOf (removeKey b seq)).Nodup := by
  rw [keysOf_removeKey]
  exact hb.filter _

theorem length_filter_ne_of_nodup {l : List Nat} (hl : l.Nodup) {seq : Nat}
    (hmem : seq ∈ l) :
    (l.filter (fun k => k ≠ seq)).length + 1 = l.length := by
  simp only [ne_eq]
  have hperm : l.Perm (seq :: l.erase seq) := List.perm_cons_erase hmem
  have hlen := hperm.length_eq
  have hfperm := (hperm.filter (fun k => decide ¬(k = seq))).length_eq
  have hnot : seq ∉ l.erase seq := hl.not_mem_erase
  have hself : (l.erase seq).filter (fun k => decide ¬(k = seq)) = l.erase seq :=
    List.filter_eq_self.mpr (fun a ha => by
      simp only [decide_eq_true_eq]
      intro hax; exact hnot (hax ▸ ha))
  simp only [List.filter_cons, not_true_eq_false, decide_False,
    Bool.false_eq_true, if_false, hself] at hfperm
  simp only [List.length_cons] at hlen
  omega

theorem length_removeKey_of_mem {b : Backlog} (hb : (keysOf b).Nodup) {seq : Nat}
    (hmem : seq ∈ keysOf b) :
    (removeKey b seq).length + 1 = b.length := by
  have h := length_filter_ne_of_nodup hb hmem
  rw [← length_keysOf b, ← length_keysOf (removeKey b seq), keysOf_removeKey]
  exact h

/-! ### Lemmas about the outer backlog map -/

theorem lookupBacklog_setBacklog_self (l : List (PathIdentifier × Backlog))
    (p : PathIdentifier) (b : Backlog) :
    lookupBacklog (setBacklog l p b) p = some b := by
  induction l with
  | nil => simp [setBacklog, lookupBacklog]
  | cons e rest ih =>
    obtain ⟨q, b0⟩ := e
    by_cases hq : q = p <;> simp [setBacklog, lookupBacklog, hq, ih]

theorem lookupBacklog_removePath_self (l : List (PathIdentifier × Backlog))
    (p : PathIdentifier) :
    lookupBacklog (removePath l p) p = none := by
  induction l with
  | nil => simp [removePath, lookupBacklog]
  | cons e rest ih =>
    obtain ⟨q, b0⟩ := e
    by_cases hq : q = p
    · subst hq
      simpa [removePath, List.filter_cons] using ih
    · simpa [removePath, List.filter_cons, hq, lookupBacklog] using ih

/-! ### Lemmas about gauge folds -/

theorem gaugeValue_append (k : GaugeKind) (lab : Labels) (es es' : List Emit) (v0 : Nat) :
    gaugeValue k lab (es ++ es') v0 = gaugeValue k lab es' (gaugeValue k lab es v0) := by
  simp [gaugeValue, List.foldl_append]

theorem gaugeValue_nil (k : GaugeKind) (lab : Labels) (v0 : Nat) :
    gaugeValue k lab [] v0 = v0 := rfl

theorem mem_keysOf_dashInsert_self (b : Backlog) (seq ts : Nat) :
    seq ∈ keysOf (dashInsert b seq ts) := by
  rw [keysOf_dashInsert]
  by_cases h : seq ∈ keysOf b <;> simp [h]

/-! ### Characterisation of a single `backlog_insert` call -/

/-- When the path already has a backlog, `backlog_insert` stores
`dashInsert` of the (possibly eviction-reduced) inner map and emits the
oldest/timestamp/size triple computed from the new map. -/
theorem backlog_insert_eq_of_lookup_some {s : TelemetryState}
    {chain channel port : String} {b : Backlog}
    (hlk : lookupBacklog s.backlogs ⟨chain, channel, port⟩ = some b)
    (seq ts : Nat) (cp : String) :
    backlog_insert s seq chain channel port cp ts =
      (let b1 :=
        if b.length > BACKLOG_RESET_THRESHOLD then
          match minKey? (keysOf b) with
          | some m => removeKey b m
          | none => b
        else b
      let b2 := dashInsert b1 seq ts
      let pair :=
        match minKey? (keysOf b2) with
        | some m => (m, b2.length)
        | none => (EMPTY_BACKLOG_SYMBOL, EMPTY_BACKLOG_SYMBOL)
      ({ s with backlogs := setBacklog s.backlogs ⟨chain, channel, port⟩ b2 },
        [⟨GaugeKind.oldest, ⟨chain, cp, channel, port⟩, pair.1⟩,
         ⟨GaugeKind.timestamp, ⟨chain, cp, channel, port⟩, ts⟩,
         ⟨GaugeKind.size, ⟨chain, cp, channel, port⟩, pair.2⟩])) := by
  simp only [backlog_insert, hlk]

theorem backlog_insert_eq_of_lookup_none {s : TelemetryState}
    {chain channel port : String}
    (hlk : lookupBacklog s.backlogs ⟨chain, channel, port⟩ = none)
    (seq ts : Nat) (cp : String) :
    backlog_insert s seq chain channel port cp ts =
      ({ s with backlogs := setBacklog s.backlogs ⟨chain, channel, port⟩ [(seq, ts)] },
        [⟨GaugeKind.oldest, ⟨chain, cp, channel, port⟩, seq⟩,
         ⟨GaugeKind.timestamp, ⟨chain, cp, channel, port⟩, ts⟩,
         ⟨GaugeKind.size, ⟨chain, cp, channel, port⟩, 1⟩]) := by
  simp only [backlog_insert, hlk]

/-! ### Characterisation of a single `backlog_remove` call -/

theorem backlog_remove_eq_of_miss {s : TelemetryState}
    {chain channel port : String} {seq : Nat}
    (hmiss : seq ∉ trackedKeys s ⟨chain, channel, port⟩)
    (cp : String) (ts : Nat) :
    backlog_remove s seq chain channel port cp ts = (s, []) := by
  unfold backlog_remove
  cases hlk : lookupBacklog s.backlogs ⟨chain, channel, port⟩ with
  | none => simp [hlk]
  | some b =>
    have hb : seq ∉ keysOf b := by
      simpa [trackedKeys, hlk] using hmiss
    simp [hlk, hb]

theorem backlog_remove_eq_of_hit {s : TelemetryState}
    {chain channel port : String} {b : Backlog} {seq : Nat}
    (hlk : lookupBacklog s.backlogs ⟨chain, channel, port⟩ = some b)
    (hmem : seq ∈ keysOf b) (cp : String) (ts : Nat) :
    backlog_remove s seq chain channel port cp ts =
      (let b2 := removeKey b seq
      let es :=
        match minKey? (keysOf b2) with
        | some min_key =>
          [⟨GaugeKind.timestamp, ⟨chain, cp, channel, port⟩, ts⟩,
           ⟨GaugeKind.oldest, ⟨chain, cp, channel, port⟩, min_key⟩,
           ⟨GaugeKind.size, ⟨chain, cp, channel, port⟩, b2.length⟩]
        | none =>
          [⟨GaugeKind.timestamp, ⟨chain, cp, channel, port⟩, ts⟩,
           ⟨GaugeKind.oldest, ⟨chain, cp, channel, port⟩, EMPTY_BACKLOG_SYMBOL⟩,
           ⟨GaugeKind.size, ⟨chain, cp, channel, port⟩, EMPTY_BACKLOG_SYMBOL⟩]
      ({ s with backlogs := setBacklog s.backlogs ⟨chain, channel, port⟩ b2 }, es)) := by
  simp only [backlog_remove, hlk, hmem, if_true]

/-- Claim C10: in sequential execution the `(EMPTY_BACKLOG_SYMBOL,
EMPTY_BACKLOG_SYMBOL)` fallback branch of `backlog_insert` is dead: right
after inserting the new sequence the inner map is non-empty, the minimum-key
computation succeeds, and the emitted oldest value is the actual minimum of
the now-tracked sequence numbers (a member of the backlog), with the emitted
size equal to the new backlog's length — never the sentinel pair. -/
theorem backlog_insert_never_emits_empty_sentinel_pair
    (s : TelemetryState) (seq ts : Nat) (chain channel port cp : String) :
    ∃ m,
      minKey? (trackedKeys (backlog_insert s seq chain channel port cp ts).1
        ⟨chain, channel, port⟩) = some m ∧
      m ∈ trackedKeys (backlog_insert s seq chain channel port cp ts).1
        ⟨chain, channel, port⟩ ∧
      (backlog_insert s seq chain channel port cp ts).2 =
        [⟨GaugeKind.oldest, ⟨chain, cp, channel, port⟩, m⟩,
         ⟨GaugeKind.timestamp, ⟨chain, cp, channel, port⟩, ts⟩,
         ⟨GaugeKind.size, ⟨chain, cp, channel, port⟩,
           (trackedKeys (backlog_insert s seq chain channel port cp ts).1
             ⟨chain, channel, port⟩).length⟩] ∧
      trackedKeys (backlog_insert s seq chain channel port cp ts).1
        ⟨chain, channel, port⟩ ≠ [] := by
  cases hlk : lookupBacklog s.backlogs ⟨chain, channel, port⟩ with
  | none =>
    rw [backlog_insert_eq_of_lookup_none hlk]
    refine ⟨seq, ?_, ?_, ?_, ?_⟩ <;>
      simp [trackedKeys, lookupBacklog_setBacklog_self, keysOf, minKey?]
  | some b =>
    rw [backlog_insert_eq_of_lookup_some hlk]
    simp only []
    set b1 :=
      (if b.length > BACKLOG_RESET_THRESHOLD then
        match minKey? (keysOf b) with
        | some m => removeKey b m
        | none => b
      else b) with hb1
    set b2 := dashInsert b1 seq ts with hb2
    have hmem : seq ∈ keysOf b2 := mem_keysOf_dashInsert_self b1 seq ts
    have hne : keysOf b2 ≠ [] := List.ne_nil_of_mem hmem
    obtain ⟨m, hm⟩ := minKey?_isSome_of_ne_nil hne
    have htracked :
        trackedKeys { s with backlogs := setBacklog s.backlogs ⟨chain, channel, port⟩ b2 }
          ⟨chain, channel, port⟩ = keysOf b2 := by
      simp [trackedKeys, lookupBacklog_setBacklog_self]
    refine ⟨m, ?_, ?_, ?_, ?_⟩
    · rw [htracked]; exact hm
    · rw [htracked]; exact minKey?_mem hm
    · simp only [hm, htracked, length_keysOf]
    · rw [htracked]; exact hne

/-- The value the backlog code emits on the oldest-sequence gauge for a given
key list: the minimum key, or the `EMPTY_BACKLOG_SYMBOL` sentinel when the
backlog is empty (the shape of the `match ... .min()` in both
`backlog_insert` and `backlog_remove`). -/
def emittedOldest (ks : List Nat) : Nat :=
  match minKey? ks with
  | some m => m
  | none => EMPTY_BACKLOG_SYMBOL

theorem emittedOldest_eq_sentinel_iff {ks : List Nat} (hz : ∀ k ∈ ks, k ≠ 0) :
    emittedOldest ks = EMPTY_BACKLOG_SYMBOL ↔ ks = [] := by
  unfold emittedOldest
  cases hm : minKey? ks with
  | none => simpa using minKey?_eq_none_iff.mp hm
  | some m =>
    have hmem := minKey?_mem hm
    have hne := hz m hmem
    constructor
    · intro h
      exact absurd h (by simpa [EMPTY_BACKLOG_SYMBOL] using hne)
    · intro h
      subst h
      simp at hmem

/-- Claim C7: `backlog_remove` on a sequence absent from the path's
backlog (or on a path with no backlog) is a silent no-op — the whole state is
unchanged and no gauge is observed.  On successful removal all three gauges
are re-emitted (timestamp, then oldest, then size), the remaining key set is
the old one minus the removed sequence, and — under the reserved-sentinel
discipline that 0 is never a real sequence number — the emitted oldest and
size are 0 exactly when the backlog is now empty. -/
theorem backlog_remove_miss_noop_hit_reemits
    (s : TelemetryState) (seq : Nat) (chain channel port cp : String) (ts : Nat) :
    (seq ∉ trackedKeys s ⟨chain, channel, port⟩ →
      backlog_remove s seq chain channel port cp ts = (s, [])) ∧
    ((∀ k ∈ trackedKeys s ⟨chain, channel, port⟩, k ≠ 0) →
      seq ∈ trackedKeys s ⟨chain, channel, port⟩ →
      trackedKeys (backlog_remove s seq chain channel port cp ts).1
          ⟨chain, channel, port⟩ =
        (trackedKeys s ⟨chain, channel, port⟩).filter (fun k => k ≠ seq) ∧
      (backlog_remove s seq chain channel port cp ts).2 =
        [⟨GaugeKind.timestamp, ⟨chain, cp, channel, port⟩, ts⟩,
         ⟨GaugeKind.oldest, ⟨chain, cp, channel, port⟩,
           emittedOldest (trackedKeys (backlog_remove s seq chain channel port cp ts).1
             ⟨chain, channel, port⟩)⟩,
         ⟨GaugeKind.size, ⟨chain, cp, channel, port⟩,
           (trackedKeys (backlog_remove s seq chain channel port cp ts).1
             ⟨chain, channel, port⟩).length⟩] ∧
      (emittedOldest (trackedKeys (backlog_remove s seq chain channel port cp ts).1
          ⟨chain, channel, port⟩) = EMPTY_BACKLOG_SYMBOL ↔
        trackedKeys (backlog_remove s seq chain channel port cp ts).1
          ⟨chain, channel, port⟩ = []) ∧
      ((trackedKeys (backlog_remove s seq chain channel port cp ts).1
          ⟨chain, channel, port⟩).length = 0 ↔
        trackedKeys (backlog_remove s seq chain channel port cp ts).1
          ⟨chain, channel, port⟩ = [])) := by
  constructor
  · intro hmiss
    exact backlog_remove_eq_of_miss hmiss cp ts
  · intro hz hmem
    cases hlk : lookupBacklog s.backlogs ⟨chain, channel, port⟩ with
    | none => simp [trackedKeys, hlk, keysOf] at hmem
    | some b =>
      have hmem' : seq ∈ keysOf b := by simpa [trackedKeys, hlk] using hmem
      rw [backlog_remove_eq_of_hit hlk hmem' cp ts]
      simp only []
      have htracked :
          trackedKeys { s with backlogs := setBacklog s.backlogs ⟨chain, channel, port⟩ (removeKey b seq) } ⟨chain, channel, port⟩ = keysOf (removeKey b seq) := by
        simp [trackedKeys, lookupBacklog_setBacklog_self]
      have htrold : trackedKeys s ⟨chain, channel, port⟩ = keysOf b := by
        simp [trackedKeys, hlk]
      have hz' : ∀ k ∈ keysOf (removeKey b seq), k ≠ 0 := by
        intro k hk
        exact hz k (htrold ▸ (mem_keysOf_removeKey.mp hk).1)
      refine ⟨?_, ?_, ?_, ?_⟩
      · rw [htracked, htrold, keysOf_removeKey]
      · rw [htracked]
        cases hm : minKey? (keysOf (removeKey b seq)) with
        | none =>
          simp only [hm, emittedOldest, length_keysOf,
            List.length_eq_zero.mpr (by simpa [keysOf] using minKey?_eq_none_iff.mp hm : removeKey b seq = [])]
          rfl
        | some m =>
          simp only [hm, emittedOldest, length_keysOf]
      · rw [htracked]
        exact emittedOldest_eq_sentinel_iff hz'
      · rw [htracked]
        simp [List.length_eq_zero]

/-- A small concrete state: one path tracking sequences 2 and 5. -/
def demoState7 : TelemetryState :=
  { initState with backlogs := [(⟨"c", "ch", "po"⟩, [(2, 40), (5, 41)])] }

/-- Witness for claim C7: on `demoState7`, removing the absent sequence 7 is
a complete no-op, and removing the present sequence 5 leaves exactly `[2]`
tracked. -/
theorem backlog_remove_miss_noop_hit_reemits_witness :
    backlog_remove demoState7 7 "c" "ch" "po" "cp" 9 = (demoState7, []) ∧
    trackedKeys (backlog_remove demoState7 5 "c" "ch" "po" "cp" 9).1
      ⟨"c", "ch", "po"⟩ = [2] := by
  constructor
  · exact (backlog_remove_miss_noop_hit_reemits demoState7 7 "c" "ch" "po" "cp" 9).1
      (by decide)
  · have h := (backlog_remove_miss_noop_hit_reemits demoState7 5 "c" "ch" "po" "cp" 9).2
      (by decide) (by decide)
    exact h.1.trans (by decide)

/-! ### A full backlog: 901 tracked sequences -/

/-- A maximal-size inner backlog: sequences 1..901 (reachable by 901 distinct
inserts; `backlog_insert` lets a path grow to `BACKLOG_RESET_THRESHOLD + 1`
entries before eviction starts firing). -/
def bigBacklog : Backlog := (List.range' 1 901).map (fun k => (k, 0))

/-- A state whose only path tracks sequences 1..901. -/
def bigState : TelemetryState :=
  { initState with backlogs := [(⟨"c", "ch", "po"⟩, bigBacklog)] }

theorem keysOf_map_pair (l : List Nat) (ts : Nat) :
    keysOf (l.map (fun k => (k, ts))) = l := by
  induction l with
  | nil => rfl
  | cons k ks ih => simp only [List.map_cons, keysOf, ih] at *; simp [ih]

theorem keysOf_bigBacklog : keysOf bigBacklog = List.range' 1 901 :=
  keysOf_map_pair _ _

theorem length_bigBacklog : bigBacklog.length = 901 := by
  rw [← length_keysOf, keysOf_bigBacklog, List.length_range']

theorem minKey?_bigBacklog : minKey? (keysOf bigBacklog) = some 1 := by
  rw [keysOf_bigBacklog]
  apply minKey?_eq_some_of
  · exact List.mem_range'_1.mpr (by omega)
  · intro x hx
    exact (List.mem_range'_1.mp hx).1

theorem lookup_bigState :
    lookupBacklog bigState.backlogs ⟨"c", "ch", "po"⟩ = some bigBacklog := by
  rfl

/-- Counterexample to claim C8 as stated: sequence 2 is already present
in `bigState`'s backlog (which holds 1..901, above the reset threshold), yet
re-inserting 2 does *not* leave the tracked set unchanged: the eviction that
fires first removes sequence 1. -/
theorem backlog_insert_reinsert_above_threshold_evicts :
    2 ∈ trackedKeys bigState ⟨"c", "ch", "po"⟩ ∧
    1 ∈ trackedKeys bigState ⟨"c", "ch", "po"⟩ ∧
    1 ∉ trackedKeys (backlog_insert bigState 2 "c" "ch" "po" "cp" 9).1
      ⟨"c", "ch", "po"⟩ := by
  have htr : trackedKeys bigState ⟨"c", "ch", "po"⟩ = List.range' 1 901 := by
    simp [trackedKeys, lookup_bigState, keysOf_bigBacklog]
  refine ⟨?_, ?_, ?_⟩
  · rw [htr]; exact List.mem_range'_1.mpr (by omega)
  · rw [htr]; exact List.mem_range'_1.mpr (by omega)
  · rw [backlog_insert_eq_of_lookup_some lookup_bigState]
    simp only []
    have hcond : bigBacklog.length > BACKLOG_RESET_THRESHOLD := by
      rw [length_bigBacklog]; decide
    rw [if_pos hcond, minKey?_bigBacklog]
    simp only [trackedKeys, lookupBacklog_setBacklog_self, Option.getD_some]
    have h2mem : 2 ∈ keysOf (removeKey bigBacklog 1) := by
      apply mem_keysOf_removeKey.mpr
      constructor
      · rw [keysOf_bigBacklog]; exact List.mem_range'_1.mpr (by omega)
      · decide
    rw [keysOf_dashInsert, if_pos h2mem]
    intro h1mem
    exact absurd (mem_keysOf_removeKey.mp h1mem).2 (by simp)

/-- Claim C8, amended: provided the path's backlog is at or below the
reset threshold (so that no eviction fires), re-inserting an already-present
sequence number overwrites only that entry's timestamp: the tracked key list
is literally unchanged, and the emitted oldest and size equal the values
derived from the pre-insertion backlog. -/
theorem backlog_insert_reinsert_overwrites_timestamp_only
    (s : TelemetryState) (chain channel port cp : String) (seq ts : Nat) (b : Backlog)
    (hlk : lookupBacklog s.backlogs ⟨chain, channel, port⟩ = some b)
    (hmem : seq ∈ keysOf b)
    (hlen : b.length ≤ BACKLOG_RESET_THRESHOLD) :
    trackedKeys (backlog_insert s seq chain channel port cp ts).1
        ⟨chain, channel, port⟩ = keysOf b ∧
    (backlog_insert s seq chain channel port cp ts).2 =
      [⟨GaugeKind.oldest, ⟨chain, cp, channel, port⟩, emittedOldest (keysOf b)⟩,
       ⟨GaugeKind.timestamp, ⟨chain, cp, channel, port⟩, ts⟩,
       ⟨GaugeKind.size, ⟨chain, cp, channel, port⟩, b.length⟩] := by
  rw [backlog_insert_eq_of_lookup_some hlk]
  simp only []
  rw [if_neg (by omega)]
  have hkeys : keysOf (dashInsert b seq ts) = keysOf b := by
    rw [keysOf_dashInsert, if_pos hmem]
  have hlen2 : (dashInsert b seq ts).length = b.length := by
    rw [← length_keysOf, hkeys, length_keysOf]
  have hne : keysOf b ≠ [] := List.ne_nil_of_mem hmem
  obtain ⟨m, hm⟩ := minKey?_isSome_of_ne_nil hne
  constructor
  · simp [trackedKeys, lookupBacklog_setBacklog_self, hkeys]
  · rw [hkeys, hm, emittedOldest, hm]
    simp [hlen2]

/-- Witness for the amended claim C8: re-inserting sequence 5 into a
single-entry backlog (at a new timestamp) leaves the tracked keys `[5]` and
re-emits oldest 5 / size 1. -/
theorem backlog_insert_reinsert_overwrites_timestamp_only_witness :
    trackedKeys (backlog_insert
        { initState with backlogs := [(⟨"c", "ch", "po"⟩, [(5, 40)])] }
        5 "c" "ch" "po" "cp" 9).1 ⟨"c", "ch", "po"⟩ = [5] := by
  have h := backlog_insert_reinsert_overwrites_timestamp_only
    { initState with backlogs := [(⟨"c", "ch", "po"⟩, [(5, 40)])] }
    "c" "ch" "po" "cp" 5 9 [(5, 40)] (by decide) (by decide) (by decide)
  exact h.1.trans (by decide)

/-! ### Size invariant of the backlog operations -/

/-- The eviction pre-pass of `backlog_insert`: when the inner map is over the
reset threshold, the minimum-key entry is removed before the insertion. -/
def evictIfOverThreshold (b : Backlog) : Backlog :=
  if b.length > BACKLOG_RESET_THRESHOLD then
    match minKey? (keysOf b) with
    | some m => removeKey b m
    | none => b
  else b

/-- On an existing path `backlog_insert` stores exactly
`dashInsert (evictIfOverThreshold b) seq ts`. -/
theorem backlog_insert_stores_of_lookup_some {s : TelemetryState}
    {chain channel port : String} {b : Backlog}
    (hlk : lookupBacklog s.backlogs ⟨chain, channel, port⟩ = some b)
    (seq ts : Nat) (cp : String) :
    lookupBacklog (backlog_insert s seq chain channel port cp ts).1.backlogs
        ⟨chain, channel, port⟩ =
      some (dashInsert (evictIfOverThreshold b) seq ts) := by
  rw [backlog_insert_eq_of_lookup_some hlk]
  simp only [evictIfOverThreshold]
  exact lookupBacklog_setBacklog_self _ _ _

theorem nodup_keysOf_evictIfOverThreshold {b : Backlog}
    (hb : (keysOf b).Nodup) : (keysOf (evictIfOverThreshold b)).Nodup := by
  unfold evictIfOverThreshold
  by_cases hlen : b.length > BACKLOG_RESET_THRESHOLD
  · rw [if_pos hlen]
    cases hm : minKey? (keysOf b) with
    | none => exact hb
    | some m => exact nodup_keysOf_removeKey hb m
  · rw [if_neg hlen]; exact hb

theorem length_evictIfOverThreshold {b : Backlog} (hb : (keysOf b).Nodup)
    (hlen : b.length ≤ BACKLOG_RESET_THRESHOLD + 1) :
    (evictIfOverThreshold b).length ≤ BACKLOG_RESET_THRESHOLD := by
  unfold evictIfOverThreshold
  by_cases hc : b.length > BACKLOG_RESET_THRESHOLD
  · rw [if_pos hc]
    have hne : keysOf b ≠ [] := by
      intro hnil
      have : b = [] := by
        cases b with
        | nil => rfl
        | cons p r => simp [keysOf] at hnil
      subst this
      simp [BACKLOG_RESET_THRESHOLD] at hc
    obtain ⟨m, hm⟩ := minKey?_isSome_of_ne_nil hne
    rw [hm]
    show (removeKey b m).length ≤ BACKLOG_RESET_THRESHOLD
    have := length_removeKey_of_mem hb (minKey?_mem hm)
    omega
  · rw [if_neg hc]; omega

/-- Per-path well-formedness: the inner map has no duplicate keys and holds
at most `BACKLOG_RESET_THRESHOLD + 1` entries. -/
def pathWF (s : TelemetryState) (p : PathIdentifier) : Prop :=
  ∀ b, lookupBacklog s.backlogs p = some b →
    (keysOf b).Nodup ∧ b.length ≤ BACKLOG_RESET_THRESHOLD + 1

theorem pathWF_initState (p : PathIdentifier) : pathWF initState p := by
  intro b hb
  simp [initState, lookupBacklog] at hb

theorem pathWF_backlog_insert {s : TelemetryState} {chain channel port : String}
    (h : pathWF s ⟨chain, channel, port⟩) (seq ts : Nat) (cp : String) :
    pathWF (backlog_insert s seq chain channel port cp ts).1 ⟨chain, channel, port⟩ := by
  cases hlk : lookupBacklog s.backlogs ⟨chain, channel, port⟩ with
  | none =>
    rw [backlog_insert_eq_of_lookup_none hlk]
    intro b hb
    rw [lookupBacklog_setBacklog_self] at hb
    cases hb
    constructor
    · simp [keysOf]
    · simp [BACKLOG_RESET_THRESHOLD]
  | some b0 =>
    obtain ⟨hnd, hle⟩ := h b0 hlk
    intro b hb
    rw [backlog_insert_stores_of_lookup_some hlk seq ts cp] at hb
    cases hb
    constructor
    · exact nodup_keysOf_dashInsert (nodup_keysOf_evictIfOverThreshold hnd) seq ts
    · have h1 := length_evictIfOverThreshold hnd hle
      have h2 := length_dashInsert (evictIfOverThreshold b0) seq ts
      by_cases hm : seq ∈ keysOf (evictIfOverThreshold b0) <;>
        simp only [hm, if_pos, if_neg, if_true, if_false] at h2 <;> omega

theorem pathWF_backlog_remove {s : TelemetryState} {chain channel port : String}
    (h : pathWF s ⟨chain, channel, port⟩) (seq ts : Nat) (cp : String) :
    pathWF (backlog_remove s seq chain channel port cp ts).1 ⟨chain, channel, port⟩ := by
  cases hlk : lookupBacklog s.backlogs ⟨chain, channel, port⟩ with
  | none =>
    have heq : backlog_remove s seq chain channel port cp ts = (s, []) := by
      simp only [backlog_remove, hlk]
    rw [heq]
    exact h
  | some b0 =>
    by_cases hmem : seq ∈ keysOf b0
    · obtain ⟨hnd, hle⟩ := h b0 hlk
      rw [backlog_remove_eq_of_hit hlk hmem cp ts]
      intro b hb
      simp only [lookupBacklog_setBacklog_self] at hb
      cases hb
      constructor
      · exact nodup_keysOf_removeKey hnd seq
      · have : (removeKey b0 seq).length ≤ b0.length := List.length_filter_le _ _
        omega
    · rw [backlog_remove_eq_of_miss (by simpa [trackedKeys, hlk] using hmem) cp ts]
      exact h

theorem pathWF_foldl_remove {chain channel port cp : String} {ts : Nat}
    (ks : List Nat) (acc : TelemetryState × List Emit)
    (h : pathWF acc.1 ⟨chain, channel, port⟩) :
    pathWF (ks.foldl
      (fun acc key =>
        let r := backlog_remove acc.1 key chain channel port cp ts
        (r.1, acc.2 ++ r.2)) acc).1 ⟨chain, channel, port⟩ := by
  induction ks generalizing acc with
  | nil => exact h
  | cons k ks ih =>
    exact ih _ (pathWF_backlog_remove h k ts cp)

theorem pathWF_foldl_insert {chain channel port cp : String} {ts : Nat}
    (ks : List Nat) (acc : TelemetryState × List Emit)
    (h : pathWF acc.1 ⟨chain, channel, port⟩) :
    pathWF (ks.foldl
      (fun acc key =>
        let r := backlog_insert acc.1 key chain channel port cp ts
        (r.1, acc.2 ++ r.2)) acc).1 ⟨chain, channel, port⟩ := by
  induction ks generalizing acc with
  | nil => exact h
  | cons k ks ih =>
    exact ih _ (pathWF_backlog_insert h k ts cp)

theorem pathWF_removePath (s : TelemetryState) (p : PathIdentifier) :
    pathWF { s with backlogs := removePath s.backlogs p } p := by
  intro b hb
  rw [lookupBacklog_removePath_self] at hb
  cases hb

theorem pathWF_update_backlog {s : TelemetryState} {chain channel port : String}
    (h : pathWF s ⟨chain, channel, port⟩) (seqs : List Nat) (ts : Nat) (cp : String) :
    pathWF (update_backlog s seqs chain channel port cp ts).1 ⟨chain, channel, port⟩ := by
  unfold update_backlog
  by_cases hseqs : seqs.isEmpty
  · rw [if_pos hseqs]
    cases hlk : lookupBacklog s.backlogs ⟨chain, channel, port⟩ with
    | none => exact h
    | some b0 => exact pathWF_foldl_remove _ _ h
  · rw [if_neg hseqs]
    exact pathWF_foldl_insert _ _ (pathWF_removePath s _)

theorem pathWF_applyBOp {chain channel port cp : String}
    (acc : TelemetryState × List Emit) (op : BOp)
    (h : pathWF acc.1 ⟨chain, channel, port⟩) :
    pathWF (applyBOp chain channel port cp acc op).1 ⟨chain, channel, port⟩ := by
  cases op with
  | ins seq ts => exact pathWF_backlog_insert h seq ts cp
  | rem seq ts => exact pathWF_backlog_remove h seq ts cp
  | upd seqs ts => exact pathWF_update_backlog h seqs ts cp

theorem pathWF_runBOps {chain channel port cp : String}
    (acc : TelemetryState × List Emit) (L : List BOp)
    (h : pathWF acc.1 ⟨chain, channel, port⟩) :
    pathWF (runBOps chain channel port cp acc L).1 ⟨chain, channel, port⟩ := by
  induction L generalizing acc with
  | nil => exact h
  | cons op L ih =>
    exact ih _ (pathWF_applyBOp acc op h)

theorem trackedKeys_length_le_of_pathWF {s : TelemetryState} {p : PathIdentifier}
    (h : pathWF s p) :
    (trackedKeys s p).length ≤ BACKLOG_RESET_THRESHOLD + 1 := by
  unfold trackedKeys
  cases hlk : lookupBacklog s.backlogs p with
  | none => simp [keysOf]
  | some b =>
    have := (h b hlk).2
    simp only [Option.getD_some, length_keysOf]
    exact this

/-- Claim C9: the bound `backlog_insert` actually enforces per path is
strictly tighter than the advertised hard capacity: after any sequence of
backlog operations on a path, its inner map holds at most
`BACKLOG_RESET_THRESHOLD + 1 = 901` entries, because eviction fires whenever
the size before insertion exceeds 900 — and that enforced bound is strictly
below `BACKLOG_CAPACITY = 1000` (which in the code is only the allocation
hint for a new path's map, never an enforced limit). -/
theorem backlog_enforced_bound_is_threshold_plus_one
    (chain channel port cp : String) (L : List BOp) :
    (trackedKeys (runBOps chain channel port cp (initState, []) L).1
        ⟨chain, channel, port⟩).length ≤ BACKLOG_RESET_THRESHOLD + 1 ∧
    BACKLOG_RESET_THRESHOLD + 1 < BACKLOG_CAPACITY := by
  constructor
  · exact trackedKeys_length_le_of_pathWF
      (pathWF_runBOps _ L (pathWF_initState _))
  · decide

/-- Claim C2: inserting any number of sequence numbers never lets a
path's backlog size exceed the hard capacity `BACKLOG_CAPACITY = 1000`; and
whenever an insertion hits a backlog whose size exceeds
`BACKLOG_RESET_THRESHOLD = 900`, the entry with the numerically smallest
present sequence number is evicted before the new entry is inserted. -/
theorem backlog_insert_capacity_bound_and_min_eviction
    (chain channel port cp : String) :
    (∀ L : List BOp,
      (trackedKeys (runBOps chain channel port cp (initState, []) L).1
        ⟨chain, channel, port⟩).length ≤ BACKLOG_CAPACITY) ∧
    (∀ (s : TelemetryState) (b : Backlog) (m seq ts : Nat),
      lookupBacklog s.backlogs ⟨chain, channel, port⟩ = some b →
      b.length > BACKLOG_RESET_THRESHOLD →
      minKey? (keysOf b) = some m →
      lookupBacklog (backlog_insert s seq chain channel port cp ts).1.backlogs
          ⟨chain, channel, port⟩ =
        some (dashInsert (removeKey b m) seq ts)) := by
  constructor
  · intro L
    have h : (trackedKeys (runBOps chain channel port cp (initState, []) L).1
        ⟨chain, channel, port⟩).length ≤ BACKLOG_RESET_THRESHOLD + 1 :=
      trackedKeys_length_le_of_pathWF
        (pathWF_runBOps (initState, []) L (pathWF_initState _))
    have hb : BACKLOG_RESET_THRESHOLD + 1 ≤ BACKLOG_CAPACITY := by decide
    omega
  · intro s b m seq ts hlk hlen hm
    rw [backlog_insert_stores_of_lookup_some hlk seq ts cp]
    unfold evictIfOverThreshold
    rw [if_pos hlen, hm]

/-- Witness for claim C2: on the concrete 901-entry backlog `bigState`,
inserting the fresh sequence 902 evicts the minimum (sequence 1) first; and
a one-insert run respects the capacity bound. -/
theorem backlog_insert_capacity_bound_and_min_eviction_witness :
    lookupBacklog (backlog_insert bigState 902 "c" "ch" "po" "cp" 9).1.backlogs
        ⟨"c", "ch", "po"⟩ = some (dashInsert (removeKey bigBacklog 1) 902 9) ∧
    (trackedKeys (runBOps "c" "ch" "po" "cp" (initState, []) [BOp.ins 1 0]).1
      ⟨"c", "ch", "po"⟩).length ≤ BACKLOG_CAPACITY := by
  constructor
  · exact (backlog_insert_capacity_bound_and_min_eviction "c" "ch" "po" "cp").2
      bigState bigBacklog 1 902 9 lookup_bigState
      (by rw [length_bigBacklog]; decide) minKey?_bigBacklog
  · exact (backlog_insert_capacity_bound_and_min_eviction "c" "ch" "po" "cp").1
      [BOp.ins 1 0]

/-! ### Correlation-cache latency (claim C4) -/

theorem lookupInFlight_upsert_self (c : List (String × InFlightEntry))
    (id : String) (e : InFlightEntry) :
    lookupInFlight (upsertInFlight c id e) id = some e := by
  induction c with
  | nil => simp [upsertInFlight, lookupInFlight]
  | cons p rest ih =>
    obtain ⟨k, e0⟩ := p
    by_cases hk : k = id <;> simp [upsertInFlight, lookupInFlight, hk, ih]

/-- Claim C4: `received_event_batch(id)` followed by
`tx_submitted(n, id, ...)` (resp. `tx_confirmed`) before either TTL has
elapsed records the elapsed latency — `t - t0`, a `Nat`, hence non-negative —
into the corresponding latency histogram exactly `n` times; and when the
tracking id is absent from the cache (never begun, or expired), both calls
leave the state entirely unchanged (and in particular record nothing),
without erroring. -/
theorem tx_latency_recorded_n_times_or_silently_skipped
    (s : TelemetryState) (id : String) (n : Nat)
    (chain channel port cp : String) (t0 t : Nat)
    (h1 : t - t0 < IN_FLIGHT_TTL_MS) (h2 : t - t0 < IN_FLIGHT_TTI_MS) :
    ((tx_submitted (received_event_batch s id t0) n id chain channel port cp t).tx_latency_submitted =
      (received_event_batch s id t0).tx_latency_submitted ++
        List.replicate n (⟨chain, cp, channel, port⟩, t - t0)) ∧
    ((tx_confirmed (received_event_batch s id t0) n id chain channel port cp t).tx_latency_confirmed =
      (received_event_batch s id t0).tx_latency_confirmed ++
        List.replicate n (⟨chain, cp, channel, port⟩, t - t0)) ∧
    (∀ s' : TelemetryState,
      (getInFlight s'.in_flight_events id t).1 = none →
      tx_submitted s' n id chain channel port cp t = s' ∧
      tx_confirmed s' n id chain channel port cp t = s') := by
  have hlk : lookupInFlight (received_event_batch s id t0).in_flight_events id =
      some ⟨t0, t0⟩ := by
    unfold received_event_batch
    exact lookupInFlight_upsert_self _ _ _
  have hlive : inFlightLive ⟨t0, t0⟩ t := ⟨h1, h2⟩
  have hget : getInFlight (received_event_batch s id t0).in_flight_events id t =
      (some t0,
        upsertInFlight (received_event_batch s id t0).in_flight_events id ⟨t0, t⟩) := by
    simp only [getInFlight, hlk, if_pos hlive]
  refine ⟨?_, ?_, ?_⟩
  · unfold tx_submitted
    rw [hget]
  · unfold tx_confirmed
    rw [hget]
  · intro s' hnone
    cases hg : getInFlight s'.in_flight_events id t with
    | mk fst snd =>
      rw [hg] at hnone
      subst hnone
      constructor
      · unfold tx_submitted
        rw [hg]
      · unfold tx_confirmed
        rw [hg]

/-- Witness for claim C4: beginning tracking id `"batch-1"` at 100 ms and
sampling at 150 ms with `tx_count = 2` records latency 50 twice in each
histogram, while sampling a never-begun id changes nothing. -/
theorem tx_latency_recorded_n_times_or_silently_skipped_witness :
    (tx_submitted (received_event_batch initState "batch-1" 100) 2 "batch-1"
        "c" "ch" "po" "cp" 150).tx_latency_submitted =
      [(⟨"c", "cp", "ch", "po"⟩, 50), (⟨"c", "cp", "ch", "po"⟩, 50)] ∧
    tx_submitted initState 2 "absent" "c" "ch" "po" "cp" 150 = initState := by
  have h := tx_latency_recorded_n_times_or_silently_skipped initState "batch-1" 2
    "c" "ch" "po" "cp" 100 150 (by decide) (by decide)
  constructor
  · exact h.1.trans (by decide)
  · exact ((tx_latency_recorded_n_times_or_silently_skipped initState "absent" 2
      "c" "ch" "po" "cp" 100 150 (by decide) (by decide)).2.2 initState (by decide)).1

/-! ### Fee ledger (claims C5 and C6) -/

theorem u64sum_foldl_lt (l : List Nat) :
    ∀ acc, acc < U64_MOD →
      l.foldl (fun acc v => (acc + v) % U64_MOD) acc < U64_MOD := by
  induction l with
  | nil => intro acc h; exact h
  | cons x xs ih =>
    intro acc _
    exact ih _ (Nat.mod_lt _ (by decide))

theorem u64sum_lt (l : List Nat) : u64sum l < U64_MOD :=
  u64sum_foldl_lt l 0 (by decide)

theorem u64sum_append_singleton (l : List Nat) (x : Nat) :
    u64sum (l ++ [x]) = (u64sum l + x) % U64_MOD := by
  unfold u64sum
  rw [List.foldl_append]
  rfl

theorem periodFeeSum_append_singleton (l : List FeeInstance) (inst : FeeInstance)
    (k : String) (now : Nat) (hget : feeInstanceGet inst k now = some inst.amount) :
    periodFeeSum (l ++ [inst]) k now =
      (periodFeeSum l k now + inst.amount) % U64_MOD := by
  unfold periodFeeSum
  rw [List.filterMap_append]
  simp only [List.filterMap_cons, hget, List.filterMap_nil]
  exact u64sum_append_singleton _ _

theorem periodFeeSum_time_congr {l : List FeeInstance} {k : String} {t0 t : Nat}
    (hle : t0 ≤ t)
    (hnoexp : ∀ inst ∈ l, inst.key = k →
      t0 - inst.inserted < FEE_LIFETIME → t - inst.inserted < FEE_LIFETIME) :
    periodFeeSum l k t = periodFeeSum l k t0 := by
  unfold periodFeeSum
  congr 1
  apply List.filterMap_congr
  intro inst hinst
  unfold feeInstanceGet
  by_cases hk : inst.key = k
  · by_cases halive : t0 - inst.inserted < FEE_LIFETIME
    · have : t - inst.inserted < FEE_LIFETIME := hnoexp inst hinst hk halive
      rw [if_pos ⟨hk, this⟩, if_pos ⟨hk, halive⟩]
    · have hnot : ¬ t - inst.inserted < FEE_LIFETIME := by
        intro hcon
        exact halive (lt_of_le_of_lt (Nat.sub_le_sub_right hle inst.inserted) hcon)
      rw [if_neg (by tauto), if_neg (by tauto)]
  · rw [if_neg (by tauto), if_neg (by tauto)]

/-- Claim C5, amended: for a receiver currently in the visible-address set,
and provided the prior windowed sum plus the amount and the prior total
counter plus the amount both stay below `2 ^ 64` (the `u64` range — this
also entails that the `as_u64` conversion does not panic), `fees_amount`
with amount `a` emits a windowed period-fee sum equal to the previously
computable sum plus exactly `a` (no contributing cache instance having
expired in between), adds `a` to the long-lived total-fee counter, and
appends exactly one new cache instance holding `a` under the key of
`(chain, receiver, denom)`. -/
theorem fees_amount_visible_adds_amount_to_window_and_total
    (s : TelemetryState) (chain receiver denom : String) (amount t0 t : Nat)
    (hvis : receiver ∈ s.visible_fee_addresses)
    (hle : t0 ≤ t)
    (hnoexp : ∀ inst ∈ s.cached_fees, inst.key = feeKey chain receiver denom →
      t0 - inst.inserted < FEE_LIFETIME → t - inst.inserted < FEE_LIFETIME)
    (hwin : periodFeeSum s.cached_fees (feeKey chain receiver denom) t0 + amount < U64_MOD)
    (htot : feeTotal s ⟨chain, receiver, denom⟩ + amount < U64_MOD) :
    fees_amount s chain receiver denom amount t =
      some ({ s with
          fee_amounts := s.fee_amounts ++ [(⟨chain, receiver, denom⟩, amount)]
          cached_fees := s.cached_fees ++ [⟨feeKey chain receiver denom, amount, t⟩] },
        some (periodFeeSum s.cached_fees (feeKey chain receiver denom) t0 + amount)) ∧
    feeTotal { s with
        fee_amounts := s.fee_amounts ++ [(⟨chain, receiver, denom⟩, amount)]
        cached_fees := s.cached_fees ++ [⟨feeKey chain receiver denom, amount, t⟩] }
      ⟨chain, receiver, denom⟩ =
      feeTotal s ⟨chain, receiver, denom⟩ + amount := by
  have hamt : amount < U64_MOD := by omega
  have hget : feeInstanceGet ⟨feeKey chain receiver denom, amount, t⟩
      (feeKey chain receiver denom) t =
      some (⟨feeKey chain receiver denom, amount, t⟩ : FeeInstance).amount := by
    unfold feeInstanceGet
    have hlt : t - t < FEE_LIFETIME := by
      rw [Nat.sub_self]
      decide
    exact if_pos ⟨rfl, hlt⟩
  have hsum : periodFeeSum (s.cached_fees ++ [⟨feeKey chain receiver denom, amount, t⟩])
      (feeKey chain receiver denom) t =
      periodFeeSum s.cached_fees (feeKey chain receiver denom) t0 + amount := by
    rw [periodFeeSum_append_singleton _ _ _ _ hget,
      periodFeeSum_time_congr hle hnoexp]
    exact Nat.mod_eq_of_lt hwin
  constructor
  · simp only [fees_amount, if_pos hvis, if_pos hamt, hsum]
  · unfold feeTotal
    simp only [List.filterMap_append, List.filterMap_cons, List.filterMap_nil,
      eq_self_iff_true, if_true]
    rw [u64sum_append_singleton]
    exact Nat.mod_eq_of_lt htot

/-- A visible receiver with `2 ^ 63` already recorded under its key inside
the 7-day window. -/
def feeDemoState : TelemetryState :=
  { initState with
      visible_fee_addresses := ["addr"]
      cached_fees := [⟨feeKey "c" "addr" "uatom", 2 ^ 63, 0⟩] }

/-- Counterexample to claim C5 as stated: the windowed sum and the total
counter are `u64` and wrap.  With `2 ^ 63` already recorded under the key
inside the window, recording a further `2 ^ 63` for the visible receiver
emits windowed sum 0, not the prior sum plus the amount (`2 ^ 64`); and an
amount of `2 ^ 64` makes `as_u64` panic (modelled `none`), recording
nothing. -/
theorem fees_amount_window_sum_wraps :
    "addr" ∈ feeDemoState.visible_fee_addresses ∧
    periodFeeSum feeDemoState.cached_fees (feeKey "c" "addr" "uatom") 0 = 2 ^ 63 ∧
    fees_amount feeDemoState "c" "addr" "uatom" (2 ^ 63) 0 =
      some ({ feeDemoState with
          fee_amounts := [(⟨"c", "addr", "uatom"⟩, 2 ^ 63)]
          cached_fees := feeDemoState.cached_fees ++
            [⟨feeKey "c" "addr" "uatom", 2 ^ 63, 0⟩] },
        some 0) ∧
    2 ^ 63 + 2 ^ 63 ≠ 0 ∧
    fees_amount feeDemoState "c" "addr" "uatom" (2 ^ 64) 0 = none := by
  refine ⟨by decide, by decide, by decide, by decide, by decide⟩

/-- Witness for the amended claim C5: with `"addr"` visible and an empty
ledger, recording amount 7 at time 0 emits windowed sum 7 and total 7. -/
theorem fees_amount_visible_adds_amount_to_window_and_total_witness :
    fees_amount { initState with visible_fee_addresses := ["addr"] }
      "c" "addr" "uatom" 7 0 =
      some ({ initState with
          visible_fee_addresses := ["addr"]
          fee_amounts := [(⟨"c", "addr", "uatom"⟩, 7)]
          cached_fees := [⟨feeKey "c" "addr" "uatom", 7, 0⟩] },
        some 7) ∧
    feeTotal { initState with
        visible_fee_addresses := ["addr"]
        fee_amounts := [(⟨"c", "addr", "uatom"⟩, 7)]
        cached_fees := [⟨feeKey "c" "addr" "uatom", 7, 0⟩] }
      ⟨"c", "addr", "uatom"⟩ = 7 := by
  have h := fees_amount_visible_adds_amount_to_window_and_total
    { initState with visible_fee_addresses := ["addr"] }
    "c" "addr" "uatom" 7 0 0 (by decide)
    (Nat.le_refl 0) (by simp [initState]) (by decide) (by decide)
  constructor
  · exact h.1.trans (by decide)
  · exact (by decide : feeTotal { initState with visible_fee_addresses := ["addr"], fee_amounts := [(⟨"c", "addr", "uatom"⟩, 7)], cached_fees := [⟨feeKey "c" "addr" "uatom", 7, 0⟩] } ⟨"c", "addr", "uatom"⟩ = feeTotal { initState with visible_fee_addresses := ["addr"], fee_amounts := ([] : List (FeeLabels × Nat)) ++ [(⟨"c", "addr", "uatom"⟩, 7)], cached_fees := ([] : List FeeInstance) ++ [⟨feeKey "c" "addr" "uatom", 7, 0⟩] } ⟨"c", "addr", "uatom"⟩).trans (h.2.trans (by decide))

/-- Claim C6: for a receiver not in the visible-address set (never added via
`add_visible_fee_address`, which only ever inserts the given address),
`fees_amount` changes nothing, however large the amount — the early return
precedes even the `as_u64` conversion, so the call returns normally with
the state untouched (every period-fee sum and the total-fee counter keep
their prior values, no cache instance is appended) and no gauge observation
is made. -/
theorem fees_amount_invisible_is_complete_noop
    (s : TelemetryState) (chain receiver denom : String) (amount t : Nat)
    (hvis : receiver ∉ s.visible_fee_addresses) :
    fees_amount s chain receiver denom amount t = some (s, none) ∧
    (∀ (s' : TelemetryState) (r : Option Nat),
      fees_amount s chain receiver denom amount t = some (s', r) →
      (∀ k now, periodFeeSum s'.cached_fees k now = periodFeeSum s.cached_fees k now) ∧
      (∀ lab, feeTotal s' lab = feeTotal s lab) ∧
      s'.cached_fees = s.cached_fees ∧ r = none) ∧
    (∀ a x, x ∈ (add_visible_fee_address s a).visible_fee_addresses ↔
      (x = a ∨ x ∈ s.visible_fee_addresses)) := by
  have heq : fees_amount s chain receiver denom amount t = some (s, none) := by
    unfold fees_amount
    rw [if_neg hvis]
  refine ⟨heq, ?_, ?_⟩
  · intro s' r h
    rw [heq] at h
    have hpair : ((s, none) : TelemetryState × Option Nat) = (s', r) :=
      Option.some.inj h
    cases hpair
    exact ⟨fun k now => rfl, fun lab => rfl, rfl, rfl⟩
  · intro a x
    unfold add_visible_fee_address
    by_cases ha : a ∈ s.visible_fee_addresses
    · rw [if_pos ha]
      constructor
      · intro hx; exact Or.inr hx
      · intro hx
        rcases hx with rfl | hx
        · exact ha
        · exact hx
    · rw [if_neg ha]
      simp

/-- Witness for claim C6: recording an amount beyond even the `u64` range
for an invisible receiver changes nothing and does not panic. -/
theorem fees_amount_invisible_is_complete_noop_witness :
    fees_amount initState "c" "nobody" "uatom" (2 ^ 70) 5 = some (initState, none) :=
  (fees_amount_invisible_is_complete_noop initState "c" "nobody" "uatom" (2 ^ 70) 5
    (by decide)).1

/-! ### Reconciliation via `update_backlog` (claim C3) -/

theorem mem_trackedKeys_backlog_insert (s : TelemetryState)
    (seq ts : Nat) (chain channel port cp : String) :
    seq ∈ trackedKeys (backlog_insert s seq chain channel port cp ts).1
      ⟨chain, channel, port⟩ := by
  cases hlk : lookupBacklog s.backlogs ⟨chain, channel, port⟩ with
  | none =>
    rw [backlog_insert_eq_of_lookup_none hlk]
    simp [trackedKeys, lookupBacklog_setBacklog_self, keysOf]
  | some b =>
    rw [backlog_insert_eq_of_lookup_some hlk]
    simp only [trackedKeys, lookupBacklog_setBacklog_self, Option.getD_some]
    exact mem_keysOf_dashInsert_self _ seq ts

theorem gaugeValue_remove_zero_emits (lab : Labels) (ts v0 : Nat) :
    gaugeValue GaugeKind.size lab
      [⟨GaugeKind.timestamp, lab, ts⟩,
       ⟨GaugeKind.oldest, lab, EMPTY_BACKLOG_SYMBOL⟩,
       ⟨GaugeKind.size, lab, EMPTY_BACKLOG_SYMBOL⟩] v0 = 0 ∧
    gaugeValue GaugeKind.oldest lab
      [⟨GaugeKind.timestamp, lab, ts⟩,
       ⟨GaugeKind.oldest, lab, EMPTY_BACKLOG_SYMBOL⟩,
       ⟨GaugeKind.size, lab, EMPTY_BACKLOG_SYMBOL⟩] v0 = 0 := by
  simp [gaugeValue, EMPTY_BACKLOG_SYMBOL]

/-- Folding `backlog_remove` over the exact current key list of a path (the
reconciliation loop of `update_backlog` with an empty ground-truth list)
empties the path's backlog and leaves both the size and oldest gauges at 0,
whatever their prior values. -/
theorem foldl_remove_all (chain channel port cp : String) (ts : Nat) :
    ∀ (ks : List Nat) (s : TelemetryState) (es : List Emit),
      ks ≠ [] → ks.Nodup →
      trackedKeys s ⟨chain, channel, port⟩ = ks →
      trackedKeys (ks.foldl
          (fun acc key =>
            let r := backlog_remove acc.1 key chain channel port cp ts
            (r.1, acc.2 ++ r.2)) (s, es)).1 ⟨chain, channel, port⟩ = [] ∧
      (∀ v0, gaugeValue GaugeKind.size ⟨chain, cp, channel, port⟩
        (ks.foldl
          (fun acc key =>
            let r := backlog_remove acc.1 key chain channel port cp ts
            (r.1, acc.2 ++ r.2)) (s, es)).2 v0 = 0) ∧
      (∀ v0, gaugeValue GaugeKind.oldest ⟨chain, cp, channel, port⟩
        (ks.foldl
          (fun acc key =>
            let r := backlog_remove acc.1 key chain channel port cp ts
            (r.1, acc.2 ++ r.2)) (s, es)).2 v0 = 0) := by
  intro ks
  induction ks with
  | nil => intro s es hne; exact absurd rfl hne
  | cons k ks' ih =>
    intro s es _ hnd htr
    obtain ⟨b, hlk, hkeys⟩ :
        ∃ b, lookupBacklog s.backlogs ⟨chain, channel, port⟩ = some b ∧
          keysOf b = k :: ks' := by
      cases hlk : lookupBacklog s.backlogs ⟨chain, channel, port⟩ with
      | none =>
        exfalso
        rw [trackedKeys, hlk] at htr
        simp [keysOf] at htr
      | some b => exact ⟨b, rfl, by simpa [trackedKeys, hlk] using htr⟩
    have hmem : k ∈ keysOf b := by rw [hkeys]; exact List.mem_cons_self _ _
    have hndks' : ks'.Nodup := (List.nodup_cons.mp hnd).2
    have hkeys2 : keysOf (removeKey b k) = ks' := by
      rw [keysOf_removeKey, hkeys, List.filter_cons]
      simp only [ne_eq, not_true_eq_false, decide_False, Bool.false_eq_true, if_false]
      exact List.filter_eq_self.mpr (fun a ha => by
        simp only [decide_eq_true_eq]
        intro hak
        exact (List.nodup_cons.mp hnd).1 (hak ▸ ha))
    simp only [List.foldl_cons]
    rw [backlog_remove_eq_of_hit hlk hmem cp ts]
    simp only []
    have htr2 : trackedKeys
        { s with backlogs := setBacklog s.backlogs ⟨chain, channel, port⟩ (removeKey b k) }
        ⟨chain, channel, port⟩ = ks' := by
      simp only [trackedKeys, lookupBacklog_setBacklog_self, Option.getD_some]
      exact hkeys2
    by_cases hksnil : ks' = []
    · subst hksnil
      have hmin : minKey? (keysOf (removeKey b k)) = none := by
        rw [hkeys2]; rfl
      rw [hmin]
      simp only [List.foldl_nil]
      refine ⟨htr2, ?_, ?_⟩ <;>
        intro v0 <;>
        rw [gaugeValue_append] <;>
        simp [gaugeValue, EMPTY_BACKLOG_SYMBOL]
    · exact ih _ _ hksnil hndks' htr2


theorem gaugeValue_insert_emits (lab : Labels) (o ts sz v0 : Nat) :
    gaugeValue GaugeKind.oldest lab
      [⟨GaugeKind.oldest, lab, o⟩, ⟨GaugeKind.timestamp, lab, ts⟩,
       ⟨GaugeKind.size, lab, sz⟩] v0 = o ∧
    gaugeValue GaugeKind.size lab
      [⟨GaugeKind.oldest, lab, o⟩, ⟨GaugeKind.timestamp, lab, ts⟩,
       ⟨GaugeKind.size, lab, sz⟩] v0 = sz := by
  simp [gaugeValue]

/-- Folding `backlog_insert` over a duplicate-free list of sequence numbers
all fresh for the path (the re-insertion loop of `update_backlog` with a
non-empty ground-truth list), staying within the eviction threshold, tracks
exactly the old keys plus the new ones, and the final gauge observations are
the derived oldest/size of the resulting backlog. -/
theorem foldl_insert_fresh (chain channel port cp : String) (ts : Nat) :
    ∀ (S : List Nat) (acc : TelemetryState × List Emit) (b : Backlog),
      lookupBacklog acc.1.backlogs ⟨chain, channel, port⟩ = some b →
      (keysOf b).Nodup → keysOf b ≠ [] →
      S.Nodup → (∀ k ∈ S, k ∉ keysOf b) →
      b.length + S.length ≤ BACKLOG_RESET_THRESHOLD + 1 →
      trackedKeys (S.foldl
          (fun acc key =>
            let r := backlog_insert acc.1 key chain channel port cp ts
            (r.1, acc.2 ++ r.2)) acc).1 ⟨chain, channel, port⟩ =
        S.reverse ++ keysOf b ∧
      (S ≠ [] →
        (∀ v0, gaugeValue GaugeKind.size ⟨chain, cp, channel, port⟩
          (S.foldl
            (fun acc key =>
              let r := backlog_insert acc.1 key chain channel port cp ts
              (r.1, acc.2 ++ r.2)) acc).2 v0 =
          (trackedKeys (S.foldl
            (fun acc key =>
              let r := backlog_insert acc.1 key chain channel port cp ts
              (r.1, acc.2 ++ r.2)) acc).1 ⟨chain, channel, port⟩).length) ∧
        (∀ v0, ∃ m,
          minKey? (trackedKeys (S.foldl
            (fun acc key =>
              let r := backlog_insert acc.1 key chain channel port cp ts
              (r.1, acc.2 ++ r.2)) acc).1 ⟨chain, channel, port⟩) = some m ∧
          gaugeValue GaugeKind.oldest ⟨chain, cp, channel, port⟩
            (S.foldl
              (fun acc key =>
                let r := backlog_insert acc.1 key chain channel port cp ts
                (r.1, acc.2 ++ r.2)) acc).2 v0 = m)) := by
  intro S
  induction S with
  | nil =>
    intro acc b hlk hnd hbne hndS hfresh hlen
    refine ⟨?_, fun h => absurd rfl h⟩
    simp [trackedKeys, hlk]
  | cons k S' ih =>
    intro acc b hlk hnd hbne hndS hfresh hlen
    have hblen : ¬ b.length > BACKLOG_RESET_THRESHOLD := by
      simp only [List.length_cons] at hlen
      omega
    have hkfresh : k ∉ keysOf b := hfresh k (List.mem_cons_self _ _)
    have hkeys2 : keysOf (dashInsert b k ts) = k :: keysOf b := by
      rw [keysOf_dashInsert, if_neg hkfresh]
    have hb2ne : keysOf (dashInsert b k ts) ≠ [] := by
      rw [hkeys2]; simp
    obtain ⟨m0, hm0⟩ := minKey?_isSome_of_ne_nil hb2ne
    have hstep : backlog_insert acc.1 k chain channel port cp ts =
        ({ acc.1 with backlogs :=
            setBacklog acc.1.backlogs ⟨chain, channel, port⟩ (dashInsert b k ts) },
          [⟨GaugeKind.oldest, ⟨chain, cp, channel, port⟩, m0⟩,
           ⟨GaugeKind.timestamp, ⟨chain, cp, channel, port⟩, ts⟩,
           ⟨GaugeKind.size, ⟨chain, cp, channel, port⟩, (dashInsert b k ts).length⟩]) := by
      rw [backlog_insert_eq_of_lookup_some hlk]
      simp only []
      rw [if_neg hblen, hm0]
    simp only [List.foldl_cons]
    rw [hstep]
    simp only []
    have hlk2 : lookupBacklog
        (setBacklog acc.1.backlogs ⟨chain, channel, port⟩ (dashInsert b k ts))
        ⟨chain, channel, port⟩ = some (dashInsert b k ts) :=
      lookupBacklog_setBacklog_self _ _ _
    have hnd2 : (keysOf (dashInsert b k ts)).Nodup := by
      rw [hkeys2]
      exact List.nodup_cons.mpr ⟨hkfresh, hnd⟩
    have hndS' : S'.Nodup := (List.nodup_cons.mp hndS).2
    have hfresh' : ∀ k' ∈ S', k' ∉ keysOf (dashInsert b k ts) := by
      intro k' hk'
      rw [hkeys2]
      intro hcon
      rcases List.mem_cons.mp hcon with rfl | hcon'
      · exact (List.nodup_cons.mp hndS).1 hk'
      · exact hfresh k' (List.mem_cons_of_mem _ hk') hcon'
    have hlen2 : (dashInsert b k ts).length + S'.length ≤ BACKLOG_RESET_THRESHOLD + 1 := by
      have h2 := length_dashInsert b k ts
      rw [if_neg hkfresh] at h2
      simp only [List.length_cons] at hlen
      omega
    have hres := ih
      ({ acc.1 with backlogs :=
          setBacklog acc.1.backlogs ⟨chain, channel, port⟩ (dashInsert b k ts) },
        acc.2 ++ [⟨GaugeKind.oldest, ⟨chain, cp, channel, port⟩, m0⟩,
          ⟨GaugeKind.timestamp, ⟨chain, cp, channel, port⟩, ts⟩,
          ⟨GaugeKind.size, ⟨chain, cp, channel, port⟩, (dashInsert b k ts).length⟩])
      (dashInsert b k ts) hlk2 hnd2 hb2ne hndS' hfresh' hlen2
    by_cases hS'nil : S' = []
    · subst hS'nil
      simp only [List.foldl_nil]
      have htr : trackedKeys
          ({ acc.1 with backlogs := setBacklog acc.1.backlogs ⟨chain, channel, port⟩ (dashInsert b k ts) } : TelemetryState) ⟨chain, channel, port⟩ =
          keysOf (dashInsert b k ts) := by
        simp [trackedKeys, lookupBacklog_setBacklog_self]
      refine ⟨?_, fun _ => ⟨?_, ?_⟩⟩
      · rw [htr, hkeys2]
        simp
      · intro v0
        rw [htr, gaugeValue_append, length_keysOf]
        exact (gaugeValue_insert_emits _ _ _ _ _).2
      · intro v0
        refine ⟨m0, ?_, ?_⟩
        · rw [htr]; exact hm0
        · rw [gaugeValue_append]
          exact (gaugeValue_insert_emits _ _ _ _ _).1
    · refine ⟨?_, fun _ => ⟨(hres.2 hS'nil).1, (hres.2 hS'nil).2⟩⟩
      rw [hres.1, hkeys2]
      simp

theorem update_backlog_nil_of_lookup_none {s : TelemetryState}
    {chain channel port : String}
    (hlk : lookupBacklog s.backlogs ⟨chain, channel, port⟩ = none)
    (cp : String) (ts : Nat) :
    update_backlog s [] chain channel port cp ts = (s, []) := by
  simp only [update_backlog, List.isEmpty_nil, if_true, hlk]

theorem update_backlog_nil_of_lookup_some {s : TelemetryState}
    {chain channel port : String} {b : Backlog}
    (hlk : lookupBacklog s.backlogs ⟨chain, channel, port⟩ = some b)
    (cp : String) (ts : Nat) :
    update_backlog s [] chain channel port cp ts =
      (keysOf b).foldl
        (fun acc key =>
          let r := backlog_remove acc.1 key chain channel port cp ts
          (r.1, acc.2 ++ r.2)) (s, []) := by
  simp only [update_backlog, List.isEmpty_nil, if_true, hlk]

theorem update_backlog_cons (s : TelemetryState) (k0 : Nat) (S0 : List Nat)
    (chain channel port cp : String) (ts : Nat) :
    update_backlog s (k0 :: S0) chain channel port cp ts =
      (k0 :: S0).foldl
        (fun acc key =>
          let r := backlog_insert acc.1 key chain channel port cp ts
          (r.1, acc.2 ++ r.2))
        ({ s with backlogs := removePath s.backlogs ⟨chain, channel, port⟩ }, []) := by
  simp only [update_backlog, List.isEmpty_cons, if_false]
  rfl

theorem trackedKeys_foldl_insert_ne_nil (chain channel port cp : String) (ts : Nat) :
    ∀ (S : List Nat) (acc : TelemetryState × List Emit), S ≠ [] →
      trackedKeys (S.foldl
        (fun acc key =>
          let r := backlog_insert acc.1 key chain channel port cp ts
          (r.1, acc.2 ++ r.2)) acc).1 ⟨chain, channel, port⟩ ≠ [] := by
  intro S
  induction S with
  | nil => intro acc h; exact absurd rfl h
  | cons k S' ih =>
    intro acc _
    simp only [List.foldl_cons]
    by_cases hS' : S' = []
    · subst hS'
      simp only [List.foldl_nil]
      exact List.ne_nil_of_mem (mem_trackedKeys_backlog_insert acc.1 k ts chain channel port cp)
    · exact ih _ hS'

/-- Run invariant: whenever a path's backlog is empty, the last values
observed on its size and oldest gauges are both 0 (gauges start at 0 and
every emptying operation re-emits the sentinel values). -/
def zeroWhenEmpty (chain channel port cp : String) (r : TelemetryState × List Emit) : Prop :=
  trackedKeys r.1 ⟨chain, channel, port⟩ = [] →
    gaugeValue GaugeKind.size ⟨chain, cp, channel, port⟩ r.2 0 = 0 ∧
    gaugeValue GaugeKind.oldest ⟨chain, cp, channel, port⟩ r.2 0 = 0

theorem zeroWhenEmpty_applyBOp {chain channel port cp : String}
    {acc : TelemetryState × List Emit}
    (hWF : pathWF acc.1 ⟨chain, channel, port⟩)
    (hQ : zeroWhenEmpty chain channel port cp acc) (op : BOp) :
    zeroWhenEmpty chain channel port cp (applyBOp chain channel port cp acc op) := by
  cases op with
  | ins seq ts =>
    intro htr
    exact absurd htr
      (List.ne_nil_of_mem (mem_trackedKeys_backlog_insert acc.1 seq ts chain channel port cp))
  | rem seq ts =>
    by_cases hmem : seq ∈ trackedKeys acc.1 ⟨chain, channel, port⟩
    · obtain ⟨b, hlk, hkeys⟩ :
          ∃ b, lookupBacklog acc.1.backlogs ⟨chain, channel, port⟩ = some b ∧
            seq ∈ keysOf b := by
        cases hlk : lookupBacklog acc.1.backlogs ⟨chain, channel, port⟩ with
        | none => simp [trackedKeys, hlk, keysOf] at hmem
        | some b => exact ⟨b, rfl, by simpa [trackedKeys, hlk] using hmem⟩
      show zeroWhenEmpty chain channel port cp
        ((backlog_remove acc.1 seq chain channel port cp ts).1,
          acc.2 ++ (backlog_remove acc.1 seq chain channel port cp ts).2)
      rw [backlog_remove_eq_of_hit hlk hkeys cp ts]
      simp only []
      intro htr
      have htr2 : keysOf (removeKey b seq) = [] := by
        simpa [trackedKeys, lookupBacklog_setBacklog_self] using htr
      have hmin : minKey? (keysOf (removeKey b seq)) = none := by
        rw [htr2]; rfl
      rw [hmin]
      constructor <;>
        rw [gaugeValue_append] <;>
        simp [gaugeValue, EMPTY_BACKLOG_SYMBOL]
    · show zeroWhenEmpty chain channel port cp
        ((backlog_remove acc.1 seq chain channel port cp ts).1,
          acc.2 ++ (backlog_remove acc.1 seq chain channel port cp ts).2)
      rw [backlog_remove_eq_of_miss hmem cp ts]
      simp only [List.append_nil]
      exact hQ
  | upd seqs ts =>
    cases seqs with
    | nil =>
      show zeroWhenEmpty chain channel port cp
        ((update_backlog acc.1 [] chain channel port cp ts).1,
          acc.2 ++ (update_backlog acc.1 [] chain channel port cp ts).2)
      cases hlk : lookupBacklog acc.1.backlogs ⟨chain, channel, port⟩ with
      | none =>
        rw [update_backlog_nil_of_lookup_none hlk cp ts]
        simp only [List.append_nil]
        exact hQ
      | some b =>
        rw [update_backlog_nil_of_lookup_some hlk cp ts]
        by_cases hks : keysOf b = []
        · rw [hks]
          simp only [List.foldl_nil, List.append_nil]
          exact hQ
        · have hnd : (keysOf b).Nodup := (hWF b hlk).1
          have htr : trackedKeys acc.1 ⟨chain, channel, port⟩ = keysOf b := by
            simp [trackedKeys, hlk]
          have hall := foldl_remove_all chain channel port cp ts (keysOf b) acc.1 []
            hks hnd htr
          intro _
          constructor <;>
            rw [gaugeValue_append]
          · exact hall.2.1 _
          · exact hall.2.2 _
    | cons k0 S0 =>
      show zeroWhenEmpty chain channel port cp
        ((update_backlog acc.1 (k0 :: S0) chain channel port cp ts).1,
          acc.2 ++ (update_backlog acc.1 (k0 :: S0) chain channel port cp ts).2)
      rw [update_backlog_cons acc.1 k0 S0 chain channel port cp ts]
      intro htr
      exact absurd htr
        (trackedKeys_foldl_insert_ne_nil chain channel port cp ts (k0 :: S0) _ (by simp))

theorem zeroWhenEmpty_runBOps (chain channel port cp : String) :
    ∀ (L : List BOp) (acc : TelemetryState × List Emit),
      pathWF acc.1 ⟨chain, channel, port⟩ →
      zeroWhenEmpty chain channel port cp acc →
      zeroWhenEmpty chain channel port cp (runBOps chain channel port cp acc L) := by
  intro L
  induction L with
  | nil => intro acc _ hQ; exact hQ
  | cons op L ih =>
    intro acc hWF hQ
    exact ih _ (pathWF_applyBOp acc op hWF) (zeroWhenEmpty_applyBOp hWF hQ op)

theorem zeroWhenEmpty_init (chain channel port cp : String) :
    zeroWhenEmpty chain channel port cp (initState, []) := by
  intro _
  exact ⟨rfl, rfl⟩

/-- Claim C3, amended: reconciliation semantics of `update_backlog`:
with an empty list it removes every tracked sequence for the path, driving
the emitted size and oldest gauges to 0 (for any reachable prior state); and
with a non-empty, duplicate-free list `S` of at most
`BACKLOG_RESET_THRESHOLD + 1` sequences it results, whatever the prior
state, in exactly the elements of `S` being tracked (`|S|` of them), with
the emitted size equal to `|S|` and the emitted oldest equal to the minimum
of `S`.  (As stated in the spec the non-empty case is false for lists with
duplicates, and for more than 901 distinct sequences, where eviction fires
during re-insertion.) -/
theorem update_backlog_reconciliation (chain channel port cp : String) :
    (∀ (L : List BOp) (ts : Nat),
      trackedKeys (update_backlog (runBOps chain channel port cp (initState, []) L).1
          [] chain channel port cp ts).1 ⟨chain, channel, port⟩ = [] ∧
      gaugeValue GaugeKind.size ⟨chain, cp, channel, port⟩
        ((runBOps chain channel port cp (initState, []) L).2 ++
          (update_backlog (runBOps chain channel port cp (initState, []) L).1
            [] chain channel port cp ts).2) 0 = 0 ∧
      gaugeValue GaugeKind.oldest ⟨chain, cp, channel, port⟩
        ((runBOps chain channel port cp (initState, []) L).2 ++
          (update_backlog (runBOps chain channel port cp (initState, []) L).1
            [] chain channel port cp ts).2) 0 = 0) ∧
    (∀ (s : TelemetryState) (S : List Nat) (ts : Nat),
      S ≠ [] → S.Nodup → S.length ≤ BACKLOG_RESET_THRESHOLD + 1 →
      trackedKeys (update_backlog s S chain channel port cp ts).1
          ⟨chain, channel, port⟩ = S.reverse ∧
      (trackedKeys (update_backlog s S chain channel port cp ts).1
          ⟨chain, channel, port⟩).length = S.length ∧
      (∀ v0, gaugeValue GaugeKind.size ⟨chain, cp, channel, port⟩
        (update_backlog s S chain channel port cp ts).2 v0 = S.length) ∧
      (∀ v0, ∃ m, gaugeValue GaugeKind.oldest ⟨chain, cp, channel, port⟩
          (update_backlog s S chain channel port cp ts).2 v0 = m ∧
        m ∈ S ∧ ∀ x ∈ S, m ≤ x)) := by
  constructor
  · intro L ts
    have hWF : pathWF (runBOps chain channel port cp (initState, []) L).1
        ⟨chain, channel, port⟩ :=
      pathWF_runBOps (initState, []) L (pathWF_initState _)
    have hQ : zeroWhenEmpty chain channel port cp
        (runBOps chain channel port cp (initState, []) L) :=
      zeroWhenEmpty_runBOps chain channel port cp L (initState, [])
        (pathWF_initState _) (zeroWhenEmpty_init chain channel port cp)
    cases hlk : lookupBacklog (runBOps chain channel port cp (initState, []) L).1.backlogs
        ⟨chain, channel, port⟩ with
    | none =>
      rw [update_backlog_nil_of_lookup_none hlk cp ts]
      have htr : trackedKeys (runBOps chain channel port cp (initState, []) L).1
          ⟨chain, channel, port⟩ = [] := by
        simp [trackedKeys, hlk, keysOf]
      have hg := hQ htr
      exact ⟨htr, by simpa using hg.1, by simpa using hg.2⟩
    | some b =>
      rw [update_backlog_nil_of_lookup_some hlk cp ts]
      have htr : trackedKeys (runBOps chain channel port cp (initState, []) L).1
          ⟨chain, channel, port⟩ = keysOf b := by
        simp [trackedKeys, hlk]
      by_cases hks : keysOf b = []
      · rw [hks]
        simp only [List.foldl_nil]
        have hg := hQ (htr.trans hks)
        exact ⟨htr.trans hks, by simpa using hg.1, by simpa using hg.2⟩
      · have hall := foldl_remove_all chain channel port cp ts (keysOf b)
          (runBOps chain channel port cp (initState, []) L).1 [] hks (hWF b hlk).1 htr
        refine ⟨hall.1, ?_, ?_⟩ <;> rw [gaugeValue_append]
        · exact hall.2.1 _
        · exact hall.2.2 _
  · intro s S ts hSne hSnd hSlen
    cases S with
    | nil => exact absurd rfl hSne
    | cons k0 S0 =>
      rw [update_backlog_cons s k0 S0 chain channel port cp ts]
      have hlk0 : lookupBacklog ({ s with backlogs := removePath s.backlogs ⟨chain, channel, port⟩ } : TelemetryState).backlogs ⟨chain, channel, port⟩ = none :=
        lookupBacklog_removePath_self _ _
      have hstep : backlog_insert ({ s with backlogs := removePath s.backlogs ⟨chain, channel, port⟩ } : TelemetryState) k0 chain channel port cp ts =
          ({ s with backlogs := setBacklog (removePath s.backlogs ⟨chain, channel, port⟩) ⟨chain, channel, port⟩ [(k0, ts)] },
            [⟨GaugeKind.oldest, ⟨chain, cp, channel, port⟩, k0⟩,
             ⟨GaugeKind.timestamp, ⟨chain, cp, channel, port⟩, ts⟩,
             ⟨GaugeKind.size, ⟨chain, cp, channel, port⟩, 1⟩]) := by
        rw [backlog_insert_eq_of_lookup_none hlk0]
      simp only [List.foldl_cons]
      rw [hstep]
      simp only [List.nil_append]
      have hlk1 : lookupBacklog ({ s with backlogs := setBacklog (removePath s.backlogs ⟨chain, channel, port⟩) ⟨chain, channel, port⟩ [(k0, ts)] } : TelemetryState).backlogs ⟨chain, channel, port⟩ = some [(k0, ts)] :=
        lookupBacklog_setBacklog_self _ _ _
      have hkeys1 : keysOf [(k0, ts)] = [k0] := rfl
      have hall := foldl_insert_fresh chain channel port cp ts S0
        ({ s with backlogs := setBacklog (removePath s.backlogs ⟨chain, channel, port⟩) ⟨chain, channel, port⟩ [(k0, ts)] },
          [⟨GaugeKind.oldest, ⟨chain, cp, channel, port⟩, k0⟩,
           ⟨GaugeKind.timestamp, ⟨chain, cp, channel, port⟩, ts⟩,
           ⟨GaugeKind.size, ⟨chain, cp, channel, port⟩, 1⟩])
        [(k0, ts)] hlk1
        (by rw [hkeys1]; simp)
        (by rw [hkeys1]; simp)
        ((List.nodup_cons.mp hSnd).2)
        (by
          intro k' hk'
          rw [hkeys1]
          simp only [List.mem_singleton]
          intro hcon
          exact (List.nodup_cons.mp hSnd).1 (hcon ▸ hk'))
        (by
          simp only [List.length_cons] at hSlen
          simp only [List.length_singleton]
          omega)
      have htrF : trackedKeys (S0.foldl
          (fun acc key =>
            let r := backlog_insert acc.1 key chain channel port cp ts
            (r.1, acc.2 ++ r.2))
          ({ s with backlogs := setBacklog (removePath s.backlogs ⟨chain, channel, port⟩) ⟨chain, channel, port⟩ [(k0, ts)] },
            [⟨GaugeKind.oldest, ⟨chain, cp, channel, port⟩, k0⟩,
             ⟨GaugeKind.timestamp, ⟨chain, cp, channel, port⟩, ts⟩,
             ⟨GaugeKind.size, ⟨chain, cp, channel, port⟩, 1⟩])).1
          ⟨chain, channel, port⟩ = (k0 :: S0).reverse := by
        rw [hall.1, hkeys1, List.reverse_cons]
      refine ⟨htrF, ?_, ?_, ?_⟩
      · rw [htrF, List.length_reverse]
      · intro v0
        by_cases hS0 : S0 = []
        · subst hS0
          simp only [List.foldl_nil]
          exact (gaugeValue_insert_emits ⟨chain, cp, channel, port⟩ k0 ts 1 v0).2
        · rw [(hall.2 hS0).1 v0, htrF, List.length_reverse]
      · intro v0
        by_cases hS0 : S0 = []
        · subst hS0
          simp only [List.foldl_nil]
          refine ⟨k0, (gaugeValue_insert_emits ⟨chain, cp, channel, port⟩ k0 ts 1 v0).1, ?_, ?_⟩
          · exact List.mem_singleton_self k0
          · intro x hx
            rw [List.mem_singleton.mp hx]
        · obtain ⟨m, hmin, hg⟩ := (hall.2 hS0).2 v0
          refine ⟨m, hg, ?_, ?_⟩
          · have hm2 := minKey?_mem hmin
            rw [htrF] at hm2
            exact List.mem_reverse.mp hm2
          · intro x hx
            exact minKey?_le hmin x (by rw [htrF]; exact List.mem_reverse.mpr hx)

/-- Counterexample to claim C3 as stated: `update_backlog` with the
non-empty list `[5, 5]` does *not* result in `|S| = 2` tracked sequences:
the duplicate insert overwrites, leaving a single tracked sequence. -/
theorem update_backlog_duplicate_list_breaks_cardinality :
    (trackedKeys (update_backlog initState [5, 5] "c" "ch" "po" "cp" 9).1
      ⟨"c", "ch", "po"⟩).length = 1 ∧
    ([5, 5] : List Nat).length = 2 := by
  constructor
  · decide
  · rfl

/-- The spec's reference scenario: sequences 1..5 inserted on one path. -/
def demoInserts : List BOp :=
  [BOp.ins 1 10, BOp.ins 2 11, BOp.ins 3 12, BOp.ins 4 13, BOp.ins 5 14]

/-- Witness for the amended claim C3, on the spec's own scenario: after
inserting 1..5, `replace(P, [5])` leaves exactly `[5]` tracked with emitted
size 1 and oldest 5, and `replace(P, [])` empties the path with both gauges
driven to 0. -/
theorem update_backlog_reconciliation_witness :
    trackedKeys (update_backlog
        (runBOps "c" "ch" "po" "cp" (initState, []) demoInserts).1
        [5] "c" "ch" "po" "cp" 20).1 ⟨"c", "ch", "po"⟩ = [5] ∧
    gaugeValue GaugeKind.size ⟨"c", "cp", "ch", "po"⟩
      (update_backlog (runBOps "c" "ch" "po" "cp" (initState, []) demoInserts).1
        [5] "c" "ch" "po" "cp" 20).2 0 = 1 ∧
    trackedKeys (update_backlog
        (runBOps "c" "ch" "po" "cp" (initState, []) demoInserts).1
        [] "c" "ch" "po" "cp" 20).1 ⟨"c", "ch", "po"⟩ = [] ∧
    gaugeValue GaugeKind.size ⟨"c", "cp", "ch", "po"⟩
      ((runBOps "c" "ch" "po" "cp" (initState, []) demoInserts).2 ++
        (update_backlog (runBOps "c" "ch" "po" "cp" (initState, []) demoInserts).1
          [] "c" "ch" "po" "cp" 20).2) 0 = 0 ∧
    gaugeValue GaugeKind.oldest ⟨"c", "cp", "ch", "po"⟩
      ((runBOps "c" "ch" "po" "cp" (initState, []) demoInserts).2 ++
        (update_backlog (runBOps "c" "ch" "po" "cp" (initState, []) demoInserts).1
          [] "c" "ch" "po" "cp" 20).2) 0 = 0 := by
  have hne := (update_backlog_reconciliation "c" "ch" "po" "cp").2
    (runBOps "c" "ch" "po" "cp" (initState, []) demoInserts).1 [5] 20
    (by simp) (by simp) (by decide)
  have hemp := (update_backlog_reconciliation "c" "ch" "po" "cp").1 demoInserts 20
  exact ⟨by simpa using hne.1, hne.2.2.1 0, hemp.1, hemp.2.1, hemp.2.2⟩

/-! ### Size/oldest tracking of insert/remove sequences (claim C1) -/

/-- Whether a backlog call is a plain insert or remove (no reconciliation). -/
def opIsInsertOrRemove : BOp → Prop
  | BOp.ins _ _ => True
  | BOp.rem _ _ => True
  | BOp.upd _ _ => False

instance (op : BOp) : Decidable (opIsInsertOrRemove op) := by
  cases op <;> simp only [opIsInsertOrRemove] <;> infer_instance

/-- The sequence numbers inserted by a list of backlog calls. -/
def insertedSeqs (L : List BOp) : List Nat :=
  L.filterMap (fun op =>
    match op with
    | BOp.ins seq _ => some seq
    | _ => none)

/-- The specified present-set semantics of one backlog call: insert adds the
sequence, remove deletes it, reconciliation replaces the whole set. -/
def stepPresent (pres : Finset Nat) : BOp → Finset Nat
  | BOp.ins seq _ => insert seq pres
  | BOp.rem seq _ => pres.erase seq
  | BOp.upd seqs _ => seqs.toFinset

/-- The set of sequence numbers the spec expects to be present after a list
of backlog calls on one path. -/
def presentAfter (L : List BOp) : Finset Nat :=
  L.foldl stepPresent ∅

theorem toFinset_filter_ne (l : List Nat) (a : Nat) :
    (l.filter (fun k => k ≠ a)).toFinset = l.toFinset.erase a := by
  ext x
  simp [List.mem_filter, Finset.mem_erase]
  tauto

/-- The C1 invariant: the tracked key list is duplicate-free and matches the
specified present set, the last size observation is its cardinality, and the
last oldest observation is its minimum (0 when empty). -/
def sizeOldestInv (chain channel port cp : String)
    (r : TelemetryState × List Emit) (pres : Finset Nat) : Prop :=
  (trackedKeys r.1 ⟨chain, channel, port⟩).Nodup ∧
  (trackedKeys r.1 ⟨chain, channel, port⟩).toFinset = pres ∧
  gaugeValue GaugeKind.size ⟨chain, cp, channel, port⟩ r.2 0 = pres.card ∧
  (pres = ∅ → gaugeValue GaugeKind.oldest ⟨chain, cp, channel, port⟩ r.2 0 = 0) ∧
  (pres ≠ ∅ →
    gaugeValue GaugeKind.oldest ⟨chain, cp, channel, port⟩ r.2 0 ∈ pres ∧
    ∀ x ∈ pres, gaugeValue GaugeKind.oldest ⟨chain, cp, channel, port⟩ r.2 0 ≤ x)

theorem sizeOldestInv_ins {chain channel port cp : String} {I : Finset Nat}
    (hcard : I.card ≤ BACKLOG_RESET_THRESHOLD)
    {acc : TelemetryState × List Emit} {pres : Finset Nat}
    (hinv : sizeOldestInv chain channel port cp acc pres) (hsub : pres ⊆ I)
    (seq ts : Nat) :
    sizeOldestInv chain channel port cp
      (applyBOp chain channel port cp acc (BOp.ins seq ts)) (insert seq pres) := by
  obtain ⟨hnd, hfin, hsize, hold0, holdm⟩ := hinv
  show sizeOldestInv chain channel port cp
    ((backlog_insert acc.1 seq chain channel port cp ts).1,
      acc.2 ++ (backlog_insert acc.1 seq chain channel port cp ts).2) (insert seq pres)
  cases hlk : lookupBacklog acc.1.backlogs ⟨chain, channel, port⟩ with
  | none =>
    have htrnil : trackedKeys acc.1 ⟨chain, channel, port⟩ = [] := by
      simp [trackedKeys, hlk, keysOf]
    have hpres : pres = ∅ := by
      rw [← hfin, htrnil]
      rfl
    subst hpres
    rw [backlog_insert_eq_of_lookup_none hlk]
    have htr : trackedKeys ({ acc.1 with backlogs := setBacklog acc.1.backlogs ⟨chain, channel, port⟩ [(seq, ts)] } : TelemetryState) ⟨chain, channel, port⟩ = [seq] := by
      simp [trackedKeys, lookupBacklog_setBacklog_self, keysOf]
    refine ⟨?_, ?_, ?_, ?_, ?_⟩
    · rw [htr]; simp
    · rw [htr]; simp
    · rw [gaugeValue_append, (gaugeValue_insert_emits _ _ _ _ _).2]
      simp
    · intro hcon
      exact absurd hcon (by simp)
    · intro _
      rw [gaugeValue_append, (gaugeValue_insert_emits _ _ _ _ _).1]
      constructor
      · simp
      · intro x hx
        simp only [Finset.mem_insert, Finset.not_mem_empty, or_false] at hx
        omega
  | some b =>
    have htr : trackedKeys acc.1 ⟨chain, channel, port⟩ = keysOf b := by
      simp [trackedKeys, hlk]
    rw [htr] at hnd hfin
    have hblen : ¬ b.length > BACKLOG_RESET_THRESHOLD := by
      have h1 : (keysOf b).toFinset.card = (keysOf b).length :=
        List.toFinset_card_of_nodup hnd
      have h2 : pres.card ≤ I.card := Finset.card_le_card hsub
      rw [hfin] at h1
      rw [← length_keysOf]
      omega
    have hmemb2 : seq ∈ keysOf (dashInsert b seq ts) := mem_keysOf_dashInsert_self b seq ts
    obtain ⟨m, hm⟩ := minKey?_isSome_of_ne_nil (List.ne_nil_of_mem hmemb2)
    have hstep : backlog_insert acc.1 seq chain channel port cp ts =
        ({ acc.1 with backlogs := setBacklog acc.1.backlogs ⟨chain, channel, port⟩ (dashInsert b seq ts) },
          [⟨GaugeKind.oldest, ⟨chain, cp, channel, port⟩, m⟩,
           ⟨GaugeKind.timestamp, ⟨chain, cp, channel, port⟩, ts⟩,
           ⟨GaugeKind.size, ⟨chain, cp, channel, port⟩, (dashInsert b seq ts).length⟩]) := by
      rw [backlog_insert_eq_of_lookup_some hlk]
      simp only []
      rw [if_neg hblen, hm]
    rw [hstep]
    have htr2 : trackedKeys ({ acc.1 with backlogs := setBacklog acc.1.backlogs ⟨chain, channel, port⟩ (dashInsert b seq ts) } : TelemetryState) ⟨chain, channel, port⟩ = keysOf (dashInsert b seq ts) := by
      simp [trackedKeys, lookupBacklog_setBacklog_self]
    have hfin2 : (keysOf (dashInsert b seq ts)).toFinset = insert seq pres := by
      rw [keysOf_dashInsert]
      by_cases hmem : seq ∈ keysOf b
      · rw [if_pos hmem, hfin]
        exact (Finset.insert_eq_self.mpr (hfin ▸ List.mem_toFinset.mpr hmem)).symm
      · rw [if_neg hmem, List.toFinset_cons, hfin]
    have hnd2 : (keysOf (dashInsert b seq ts)).Nodup := nodup_keysOf_dashInsert hnd seq ts
    refine ⟨?_, ?_, ?_, ?_, ?_⟩
    · rw [htr2]; exact hnd2
    · rw [htr2]; exact hfin2
    · rw [gaugeValue_append, (gaugeValue_insert_emits _ _ _ _ _).2,
        ← hfin2, List.toFinset_card_of_nodup hnd2, length_keysOf]
    · intro hcon
      exact absurd hcon (Finset.insert_ne_empty _ _)
    · intro _
      rw [gaugeValue_append, (gaugeValue_insert_emits _ _ _ _ _).1]
      constructor
      · rw [← hfin2]
        exact List.mem_toFinset.mpr (minKey?_mem hm)
      · intro x hx
        rw [← hfin2] at hx
        exact minKey?_le hm x (List.mem_toFinset.mp hx)

theorem sizeOldestInv_rem {chain channel port cp : String}
    {acc : TelemetryState × List Emit} {pres : Finset Nat}
    (hinv : sizeOldestInv chain channel port cp acc pres) (seq ts : Nat) :
    sizeOldestInv chain channel port cp
      (applyBOp chain channel port cp acc (BOp.rem seq ts)) (pres.erase seq) := by
  obtain ⟨hnd, hfin, hsize, hold0, holdm⟩ := hinv
  show sizeOldestInv chain channel port cp
    ((backlog_remove acc.1 seq chain channel port cp ts).1,
      acc.2 ++ (backlog_remove acc.1 seq chain channel port cp ts).2) (pres.erase seq)
  by_cases hmem : seq ∈ trackedKeys acc.1 ⟨chain, channel, port⟩
  · obtain ⟨b, hlk, hmemb⟩ :
        ∃ b, lookupBacklog acc.1.backlogs ⟨chain, channel, port⟩ = some b ∧
          seq ∈ keysOf b := by
      cases hlk : lookupBacklog acc.1.backlogs ⟨chain, channel, port⟩ with
      | none => simp [trackedKeys, hlk, keysOf] at hmem
      | some b => exact ⟨b, rfl, by simpa [trackedKeys, hlk] using hmem⟩
    have htr : trackedKeys acc.1 ⟨chain, channel, port⟩ = keysOf b := by
      simp [trackedKeys, hlk]
    rw [htr] at hnd hfin
    rw [backlog_remove_eq_of_hit hlk hmemb cp ts]
    simp only []
    have htr2 : trackedKeys ({ acc.1 with backlogs := setBacklog acc.1.backlogs ⟨chain, channel, port⟩ (removeKey b seq) } : TelemetryState) ⟨chain, channel, port⟩ = keysOf (removeKey b seq) := by
      simp [trackedKeys, lookupBacklog_setBacklog_self]
    have hfin2 : (keysOf (removeKey b seq)).toFinset = pres.erase seq := by
      rw [keysOf_removeKey, toFinset_filter_ne, hfin]
    have hnd2 : (keysOf (removeKey b seq)).Nodup := nodup_keysOf_removeKey hnd seq
    cases hm : minKey? (keysOf (removeKey b seq)) with
    | none =>
      have hnil : keysOf (removeKey b seq) = [] := minKey?_eq_none_iff.mp hm
      have hpres2 : pres.erase seq = ∅ := by
        rw [← hfin2, hnil]
        rfl
      refine ⟨?_, ?_, ?_, ?_, ?_⟩
      · rw [htr2]; exact hnd2
      · rw [htr2]; exact hfin2
      · rw [gaugeValue_append, hpres2]
        simp [gaugeValue, EMPTY_BACKLOG_SYMBOL]
      · intro _
        rw [gaugeValue_append]
        simp [gaugeValue, EMPTY_BACKLOG_SYMBOL]
      · intro hcon
        exact absurd hpres2 hcon
    | some m =>
      have hmmem : m ∈ keysOf (removeKey b seq) := minKey?_mem hm
      refine ⟨?_, ?_, ?_, ?_, ?_⟩
      · rw [htr2]; exact hnd2
      · rw [htr2]; exact hfin2
      · rw [gaugeValue_append]
        have : gaugeValue GaugeKind.size ⟨chain, cp, channel, port⟩
            [⟨GaugeKind.timestamp, ⟨chain, cp, channel, port⟩, ts⟩,
             ⟨GaugeKind.oldest, ⟨chain, cp, channel, port⟩, m⟩,
             ⟨GaugeKind.size, ⟨chain, cp, channel, port⟩, (removeKey b seq).length⟩]
            (gaugeValue GaugeKind.size ⟨chain, cp, channel, port⟩ acc.2 0) =
            (removeKey b seq).length := by
          simp [gaugeValue]
        rw [this, ← hfin2, List.toFinset_card_of_nodup hnd2, length_keysOf]
      · intro hcon
        rw [← hfin2] at hcon
        exact absurd (List.mem_toFinset.mpr hmmem) (by rw [hcon]; simp)
      · intro _
        have hg : gaugeValue GaugeKind.oldest ⟨chain, cp, channel, port⟩
            (acc.2 ++ [⟨GaugeKind.timestamp, ⟨chain, cp, channel, port⟩, ts⟩,
             ⟨GaugeKind.oldest, ⟨chain, cp, channel, port⟩, m⟩,
             ⟨GaugeKind.size, ⟨chain, cp, channel, port⟩, (removeKey b seq).length⟩]) 0 = m := by
          rw [gaugeValue_append]
          simp [gaugeValue]
        rw [hg]
        constructor
        · rw [← hfin2]
          exact List.mem_toFinset.mpr hmmem
        · intro x hx
          rw [← hfin2] at hx
          exact minKey?_le hm x (List.mem_toFinset.mp hx)
  · have hnp : seq ∉ pres := by
      rw [← hfin]
      intro hcon
      exact hmem (List.mem_toFinset.mp hcon)
    rw [backlog_remove_eq_of_miss hmem cp ts]
    simp only [List.append_nil]
    rw [Finset.erase_eq_of_not_mem hnp]
    exact ⟨hnd, hfin, hsize, hold0, holdm⟩

theorem sizeOldestInv_runBOps {chain channel port cp : String} {I : Finset Nat}
    (hcard : I.card ≤ BACKLOG_RESET_THRESHOLD) :
    ∀ (L : List BOp) (acc : TelemetryState × List Emit) (pres : Finset Nat),
      sizeOldestInv chain channel port cp acc pres → pres ⊆ I →
      (∀ op ∈ L, opIsInsertOrRemove op) →
      (∀ seq ts, BOp.ins seq ts ∈ L → seq ∈ I) →
      sizeOldestInv chain channel port cp
        (runBOps chain channel port cp acc L) (L.foldl stepPresent pres) ∧
      L.foldl stepPresent pres ⊆ I := by
  intro L
  induction L with
  | nil => intro acc pres hinv hsub _ _; exact ⟨hinv, hsub⟩
  | cons op L ih =>
    intro acc pres hinv hsub hIR hins
    cases op with
    | ins seq ts =>
      have hseqI : seq ∈ I := hins seq ts (List.mem_cons_self _ _)
      have hsub2 : insert seq pres ⊆ I := Finset.insert_subset_iff.mpr ⟨hseqI, hsub⟩
      exact ih _ _ (sizeOldestInv_ins hcard hinv hsub seq ts) hsub2
        (fun o ho => hIR o (List.mem_cons_of_mem _ ho))
        (fun s' t' h' => hins s' t' (List.mem_cons_of_mem _ h'))
    | rem seq ts =>
      have hsub2 : pres.erase seq ⊆ I :=
        Finset.Subset.trans (Finset.erase_subset _ _) hsub
      exact ih _ _ (sizeOldestInv_rem hinv seq ts) hsub2
        (fun o ho => hIR o (List.mem_cons_of_mem _ ho))
        (fun s' t' h' => hins s' t' (List.mem_cons_of_mem _ h'))
    | upd seqs ts =>
      exact absurd (hIR _ (List.mem_cons_self _ _)) (by simp [opIsInsertOrRemove])

/-- Claim C1: for any finite sequence of `backlog_insert`/
`backlog_remove` calls on one path whose distinct inserted sequence numbers
stay within the eviction threshold (and avoid the reserved sentinel 0), the
tracked key set equals the specified present set (inserted-minus-removed,
as a set fold), the last emitted backlog size equals its cardinality, and
the last emitted oldest sequence equals its minimum — emitted as 0 if and
only if the path's backlog is empty.  Since the hypotheses are closed under
taking prefixes, instantiating `L` with any prefix of a longer run settles
the "after any prefix" form of the claim. -/
theorem backlog_gauges_track_present_set (chain channel port cp : String)
    (L : List BOp)
    (hIR : ∀ op ∈ L, opIsInsertOrRemove op)
    (hbound : (insertedSeqs L).toFinset.card ≤ BACKLOG_RESET_THRESHOLD)
    (hnz : 0 ∉ insertedSeqs L) :
    (trackedKeys (runBOps chain channel port cp (initState, []) L).1
      ⟨chain, channel, port⟩).toFinset = presentAfter L ∧
    gaugeValue GaugeKind.size ⟨chain, cp, channel, port⟩
      (runBOps chain channel port cp (initState, []) L).2 0 = (presentAfter L).card ∧
    (gaugeValue GaugeKind.oldest ⟨chain, cp, channel, port⟩
      (runBOps chain channel port cp (initState, []) L).2 0 = 0 ↔
      presentAfter L = ∅) ∧
    (presentAfter L ≠ ∅ →
      gaugeValue GaugeKind.oldest ⟨chain, cp, channel, port⟩
        (runBOps chain channel port cp (initState, []) L).2 0 ∈ presentAfter L ∧
      ∀ x ∈ presentAfter L,
        gaugeValue GaugeKind.oldest ⟨chain, cp, channel, port⟩
          (runBOps chain channel port cp (initState, []) L).2 0 ≤ x) := by
  have hinit : sizeOldestInv chain channel port cp (initState, []) ∅ := by
    refine ⟨?_, ?_, ?_, ?_, ?_⟩
    · simp [trackedKeys, initState, lookupBacklog, keysOf]
    · simp [trackedKeys, initState, lookupBacklog, keysOf]
    · rfl
    · intro _; rfl
    · intro hcon; exact absurd rfl hcon
  have hins : ∀ seq ts, BOp.ins seq ts ∈ L → seq ∈ (insertedSeqs L).toFinset := by
    intro seq ts hmem
    apply List.mem_toFinset.mpr
    apply List.mem_filterMap.mpr
    exact ⟨BOp.ins seq ts, hmem, rfl⟩
  obtain ⟨hinv, hsub⟩ := sizeOldestInv_runBOps hbound L (initState, []) ∅ hinit
    (Finset.empty_subset _) hIR hins
  obtain ⟨hnd, hfin, hsize, hold0, holdm⟩ := hinv
  refine ⟨hfin, hsize, ?_, holdm⟩
  constructor
  · intro hg
    by_contra hne
    have hm := (holdm hne).1
    rw [hg] at hm
    have : (0 : Nat) ∈ (insertedSeqs L).toFinset := hsub hm
    exact hnz (List.mem_toFinset.mp this)
  · exact hold0

/-- The spec's worked example: insert 1..5 then remove 3 and 1. -/
def demoOps : List BOp :=
  [BOp.ins 1 10, BOp.ins 2 11, BOp.ins 3 12, BOp.ins 4 13, BOp.ins 5 14,
   BOp.rem 3 15, BOp.rem 1 16]

/-- Witness for claim C1 on the spec's worked example: inserting 1,2,3,4,5
and removing 3 then 1 leaves emitted size 3 and emitted oldest 2. -/
theorem backlog_gauges_track_present_set_witness :
    gaugeValue GaugeKind.size ⟨"c", "cp", "ch", "po"⟩
      (runBOps "c" "ch" "po" "cp" (initState, []) demoOps).2 0 = 3 ∧
    gaugeValue GaugeKind.oldest ⟨"c", "cp", "ch", "po"⟩
      (runBOps "c" "ch" "po" "cp" (initState, []) demoOps).2 0 = 2 := by
  have h := backlog_gauges_track_present_set "c" "ch" "po" "cp" demoOps
    (by decide) (by decide) (by decide)
  have hpres : presentAfter demoOps = ({2, 4, 5} : Finset Nat) := by decide
  constructor
  · rw [h.2.1, hpres]
    decide
  · obtain ⟨hmem, hlb⟩ := h.2.2.2 (by rw [hpres]; decide)
    have hle2 : gaugeValue GaugeKind.oldest ⟨"c", "cp", "ch", "po"⟩
        (runBOps "c" "ch" "po" "cp" (initState, []) demoOps).2 0 ≤ 2 :=
      hlb 2 (by rw [hpres]; decide)
    rw [hpres] at hmem
    simp only [Finset.mem_insert, Finset.mem_singleton] at hmem
    omega
